import Mathlib

/-!
# Verification of the search-indexer core of `korean-internal-file-viewer`

This file gives a shallow embedding, in Lean 4, of the search indexer of the
repository (`src/utils/search_indexer.py`): the `SearchIndex` inverted index
(tokenization, `add_file`, `remove_file`, `search`, `_calculate_relevance`)
and the `SearchIndexer` cache layer (`_get_file_hash`,
`save_index_to_cache`, `load_index_from_cache`, `index_directory`), and
proves or refutes the specified properties of those operations.

Modelling conventions (each is noted again at the definition it concerns):

* Python strings are modelled as `List Char` (`Str`).  `str.lower()` is
  modelled on the ASCII letters; the indexer's character class keeps only
  Hangul syllables, ASCII letters, digits and whitespace, so non-ASCII cased
  letters are replaced by a space on both sides of the model.
* Python `dict`s are association lists; `dict` and `set` equality in Python
  is extensional, so stated equalities of states are lookup-wise (or literal,
  which is stronger).  Python `set` iteration order is unspecified; the model
  fixes a deterministic insertion order, and no theorem below depends on the
  order inside a set, only on membership, block structure and cardinality.
* Floating point scores (`relevance_score`) are modelled in `ℚ`; every
  numeric fact used (e.g. `2.0 > 1.5`, `1/2 + 1 = 3/2`) is exact in both.
* `datetime.now()` is modelled as a `Nat` tick supplied per indexing run.
* `hashlib.md5` over `f"{mtime}_{size}_{path}"` is modelled as the injective
  pairing `(mtime, size, path)` (a collision-free abstraction of md5; the
  code uses it only for equality tests), with `none` standing for the `""`
  returned when `os.stat` fails (file missing).
* The filesystem is a list of file records with distinct, already-normalized
  absolute POSIX paths (so `os.path.realpath`/`normcase`/`normpath` are the
  identity, as on a case-sensitive filesystem without symlinks).
* The `ThreadPoolExecutor` dispatch in `index_directory` is modelled as a
  sequential fold: every `SearchIndex` mutation in the source is serialized
  through `self.lock`, and no stated property depends on completion order.
-/

/-- Python strings, modelled as lists of characters. -/
abbrev Str := List Char

/-- Coerce a Lean string literal into the model's string type. -/
def pyStr (s : String) : Str := s.data

/-- `str.lower()` on one character: ASCII `A`-`Z` map to `a`-`z`; every other
character is left unchanged.  (Hangul has no case; non-ASCII cased letters
fall outside the indexer's kept character class either way.) -/
def pyLower (c : Char) : Char :=
  if 'A' ≤ c ∧ c ≤ 'Z' then Char.ofNat (c.toNat + 32) else c

/-- The whitespace class of Python's regex `\s` / `str.split()` (ASCII part). -/
def isPySpace (c : Char) : Bool :=
  c = ' ' || c = '\t' || c = '\n' || c = '\r' || c = '\x0b' || c = '\x0c'

/-- The character class kept by `_tokenize`'s
`re.sub(r'[^가-힣a-zA-Z0-9\s]', ' ', ...)`: Hangul syllables, ASCII letters,
digits, whitespace. -/
def keepChar (c : Char) : Bool :=
  ('가' ≤ c && c ≤ '힣') || ('a' ≤ c && c ≤ 'z') || ('A' ≤ c && c ≤ 'Z') ||
    ('0' ≤ c && c ≤ '9') || isPySpace c

/-- One character of the `re.sub` replacing out-of-class characters by `' '`. -/
def stripChar (c : Char) : Char := if keepChar c then c else ' '

/-- Python `str.split()` with no separator: split on runs of whitespace and
discard empty pieces (splitting at every whitespace character and dropping
the empty fragments is the same thing). -/
def splitWs (l : Str) : List Str :=
  (l.foldr
    (fun c acc =>
      if isPySpace c then [] :: acc
      else
        match acc with
        | [] => [[c]]
        | t :: ts => (c :: t) :: ts)
    []).filter (fun t => !t.isEmpty)

/-- The stop-word set loaded by `_load_stop_words` (Korean ∪ English). -/
def stopWords : List Str :=
  [pyStr "이", pyStr "그", pyStr "저", pyStr "것", pyStr "의", pyStr "가",
   pyStr "을", pyStr "를", pyStr "에", pyStr "에서", pyStr "로", pyStr "으로",
   pyStr "은", pyStr "는", pyStr "이다", pyStr "있다", pyStr "하다",
   pyStr "되다", pyStr "수", pyStr "등", pyStr "및", pyStr "또는",
   pyStr "그리고", pyStr "하지만", pyStr "그러나", pyStr "따라서",
   pyStr "그래서",
   pyStr "a", pyStr "an", pyStr "and", pyStr "are", pyStr "as", pyStr "at",
   pyStr "be", pyStr "by", pyStr "for", pyStr "from", pyStr "has", pyStr "he",
   pyStr "in", pyStr "is", pyStr "it", pyStr "its", pyStr "of", pyStr "on",
   pyStr "that", pyStr "the", pyStr "to", pyStr "was", pyStr "will",
   pyStr "with", pyStr "or", pyStr "but", pyStr "if", pyStr "this",
   pyStr "they"]

/-- `SearchIndex._tokenize`: lowercase, replace out-of-class characters by a
space, split on whitespace, keep tokens of length ≥ 2 that are not stop
words. -/
def tokenize (text : Str) : List Str :=
  (splitWs ((text.map pyLower).map stripChar)).filter
    (fun t => decide (2 ≤ t.length) && !stopWords.contains t)

example : tokenize (pyStr "Hello, World!") = [pyStr "hello", pyStr "world"] := by
  decide

example : tokenize (pyStr "a x") = [] := by decide

example : tokenize (pyStr "apple banana") = [pyStr "apple", pyStr "banana"] := by
  decide

example : splitWs (pyStr "  ab  cd ") = [pyStr "ab", pyStr "cd"] := by decide

example : splitWs (pyStr "   ") = [] := by decide

example : tokenize (pyStr "doc1.txt apple banana") =
    [pyStr "doc1", pyStr "txt", pyStr "apple", pyStr "banana"] := by decide

example : tokenize (pyStr "한국어 검색 the") = [pyStr "한국어", pyStr "검색"] := by
  decide

/-- Python's substring test `needle in hay`. -/
def strContains (needle hay : Str) : Bool :=
  needle.isPrefixOf hay ||
    match hay with
    | [] => false
    | _ :: rest => strContains needle rest

/-- Python's `hay.startswith(needle)`. -/
def strStartsWith (hay needle : Str) : Bool := needle.isPrefixOf hay

/-- `os.path.basename` on POSIX: the part after the last `/`. -/
def basename (p : Str) : Str :=
  p.foldl (fun acc c => if c = '/' then [] else acc ++ [c]) []

example : basename (pyStr "/data/doc1.txt") = pyStr "doc1.txt" := by decide

example : strContains (pyStr "apple") (pyStr "apple.txt") = true := by decide

example : strContains (pyStr "pear") (pyStr "apple.txt") = false := by decide

/-- First-match association-list lookup (Python `dict` access). -/
def alLookup {α : Type} (l : List (Str × α)) (k : Str) : Option α :=
  match l with
  | [] => none
  | (k', v) :: rest => if k' = k then some v else alLookup rest k

/-- Python `dict` assignment `d[k] = v`: replace in place if the key exists,
append otherwise. -/
def alInsert {α : Type} (l : List (Str × α)) (k : Str) (v : α) :
    List (Str × α) :=
  match l with
  | [] => [(k, v)]
  | (k', v') :: rest =>
    if k' = k then (k, v) :: rest else (k', v') :: alInsert rest k v

/-- Python `del d[k]` (a no-op here when the key is absent; the source guards
the delete with a membership test). -/
def alErase {α : Type} (l : List (Str × α)) (k : Str) : List (Str × α) :=
  l.filter (fun p => p.1 ≠ k)

/-- Python `set.add`: append if absent (iteration order of Python sets is
unspecified; the model fixes insertion order). -/
def setAdd (l : List Str) (x : Str) : List Str :=
  if x ∈ l then l else l ++ [x]

/-- Python set union `acc |= s`, as ordered duplicate-free lists. -/
def setUnion (a b : List Str) : List Str := b.foldl setAdd a

/-- Python set intersection `a &= b`, as ordered duplicate-free lists. -/
def setInter (a b : List Str) : List Str := a.filter (fun x => x ∈ b)

/-- Python set difference `a - b`, as ordered duplicate-free lists. -/
def setDiff (a b : List Str) : List Str := a.filter (fun x => x ∉ b)

/-- The metadata dict handed to `SearchIndex.add_file` (`file_info` in the
source): the fields of `FileManager.get_file_info` that the indexer and the
cache layer read.  Remaining keys of the Python dict are never consulted by
the code under verification. -/
structure Meta where
  fileType : Str
  fileSizeMb : ℚ
  deriving DecidableEq, Repr

/-- The per-file record stored in `SearchIndex.file_info`: the supplied
metadata, with `indexed_time`, `content_preview` and `full_content`
overriding any like-named keys (the explicit keys of the dict literal in
`add_file` win over the `**file_info` spread). -/
structure FileEntry where
  meta : Meta
  indexedTime : Nat
  contentPreview : Str
  fullContent : Str
  deriving DecidableEq, Repr

/-- The state of a `SearchIndex`: the inverted index `self.index`
(token → set of file paths) and `self.file_info` (path → record).  Python's
`defaultdict(set)` never holds an empty set here: entries are only created
by `add_file`, which immediately inserts a path, and every read elsewhere is
guarded by a membership test. -/
structure SearchIndex where
  index : List (Str × List Str)
  fileInfo : List (Str × FileEntry)
  deriving DecidableEq, Repr

/-- The empty index (`SearchIndex.__init__`). -/
def SearchIndex.empty : SearchIndex := ⟨[], []⟩

/-- The postings scan of `SearchIndex.remove_file`: discard `path` from
every postings set it occurs in, and delete any token whose postings set
contained the path and became empty. -/
def removeIdx (ix : List (Str × List Str)) (path : Str) :
    List (Str × List Str) :=
  ix.filterMap (fun e =>
    if path ∈ e.2 then
      let rest := e.2.filter (fun q => q ≠ path)
      if rest.isEmpty then none else some (e.1, rest)
    else some e)

/-- `SearchIndex.remove_file`: drop the path's metadata and scrub the path
from the inverted index. -/
def SearchIndex.removeFile (st : SearchIndex) (path : Str) : SearchIndex where
  index := removeIdx st.index path
  fileInfo := alErase st.fileInfo path

/-- Add `path` to the postings set of `token`
(`self.index[token].add(file_path)` through the `defaultdict`). -/
def postingsAdd (ix : List (Str × List Str)) (token path : Str) :
    List (Str × List Str) :=
  match ix with
  | [] => [(token, [path])]
  | (t, l) :: rest =>
    if t = token then (t, setAdd l path) :: rest
    else (t, l) :: postingsAdd rest token path

/-- `SearchIndex.add_file`: remove any existing entry for the path, store the
file record (preview = first 200 characters), tokenize
`f"{filename} {content}"`, and insert the path into the postings of every
distinct token.  `datetime.now()` is the `now` argument. -/
def SearchIndex.addFile (st : SearchIndex) (path content : Str) (meta : Meta)
    (now : Nat) : SearchIndex :=
  let st := st.removeFile path
  let entry : FileEntry := ⟨meta, now, content.take 200, content⟩
  { index := ((basename path ++ [' '] ++ content) |> tokenize).dedup.foldl
      (fun ix t => postingsAdd ix t path) st.index
    fileInfo := alInsert st.fileInfo path entry }

/-- The per-token candidate set built inside `SearchIndex.search`: exact
postings for the token, unioned with the postings of every indexed token
that starts with the query token or contains it as a substring. -/
def SearchIndex.candidates (st : SearchIndex) (t : Str) : List Str :=
  let exact : List Str :=
    match alLookup st.index t with
    | some l => setUnion [] l
    | none => []
  st.index.foldl
    (fun acc e =>
      if strStartsWith e.1 t || strContains t e.1 then setUnion acc e.2
      else acc)
    exact

/-- `token_results`: one candidate set per query token, in query order
(duplicated query tokens give duplicated sets, as in the source). -/
def SearchIndex.tokenResults (st : SearchIndex) (qts : List Str) :
    List (List Str) :=
  qts.map st.candidates

/-- `result_files = token_results[0] & token_results[1] & ...` (AND). -/
def andListOf : List (List Str) → List Str
  | [] => []
  | r :: rs => rs.foldl setInter r

/-- `or_results = token_results[0] | token_results[1] | ...` (OR). -/
def orListOf (trs : List (List Str)) : List Str :=
  trs.foldl setUnion []

/-- The candidate file list of `search` before capping: the AND
intersection, relaxed by appending the OR union minus the AND results when
the intersection holds fewer than `max_results // 2` files. -/
def SearchIndex.candAll (st : SearchIndex) (qts : List Str) (maxResults : Nat) :
    List Str :=
  let trs := st.tokenResults qts
  let andL := andListOf trs
  if andL.length < maxResults / 2 then andL ++ setDiff (orListOf trs) andL
  else andL

/-- `SearchIndex._calculate_relevance`: `+2.0` per query token that is a
substring of the lowercased basename, `+ 1/len(postings)` per query token
present in the inverted index (scores in `ℚ`, standing for Python floats;
all comparisons used below are exact in both). -/
def SearchIndex.calculateRelevance (st : SearchIndex) (path : Str)
    (qts : List Str) : ℚ :=
  match alLookup st.fileInfo path with
  | none => 0
  | some _ =>
    let filename := (basename path).map pyLower
    qts.foldl
      (fun score t =>
        let score := if strContains t filename then score + 2 else score
        match alLookup st.index t with
        | some l => if 0 < l.length then score + 1 / (l.length : ℚ) else score
        | none => score)
      0

/-- One element of the list returned by `SearchIndex.search`.  The
`preview` field (`_highlight_matches` over the 200-character preview) is
omitted: no verified property concerns it. -/
structure Result where
  filePath : Str
  filename : Str
  fileType : Str
  fileSizeMb : ℚ
  indexedTime : Nat
  relevanceScore : ℚ
  deriving DecidableEq, Repr

/-- Stable descending insertion by `relevance_score`: an element is placed
after every already-placed element of greater-or-equal score.  Any stable
sort (Python's `list.sort(key=..., reverse=True)` included) produces this
exact list. -/
def insertDesc (x : Result) : List Result → List Result
  | [] => [x]
  | y :: ys =>
    if x.relevanceScore ≤ y.relevanceScore then y :: insertDesc x ys
    else x :: y :: ys

/-- `search_results.sort(key=lambda x: x['relevance_score'], reverse=True)`. -/
def sortByScoreDesc (l : List Result) : List Result :=
  l.foldl (fun acc x => insertDesc x acc) []

/-- `SearchIndex.search`: empty for blank or token-free queries; otherwise
build per-token candidate sets, intersect (AND), relax to OR when the
intersection holds fewer than `max_results // 2` files, cap at
`max_results`, build one result per candidate that has a `file_info` record,
and sort by relevance score, descending.  The source only reads the state
(every `self.index` access is guarded by membership or iterates existing
entries, so the `defaultdict` is never extended), hence `search` is a pure
function of the state here. -/
def SearchIndex.search (st : SearchIndex) (query : Str)
    (maxResults : Nat) : List Result :=
  if query.all isPySpace then []
  else
    match _h : tokenize query with
    | [] => []
    | _ :: _ =>
      let qts := tokenize query
      let capped := (st.candAll qts maxResults).take maxResults
      let results := capped.filterMap (fun p =>
        (alLookup st.fileInfo p).map (fun e =>
          { filePath := p
            filename := basename p
            fileType := e.meta.fileType
            fileSizeMb := e.meta.fileSizeMb
            indexedTime := e.indexedTime
            relevanceScore := st.calculateRelevance p qts : Result }))
      sortByScoreDesc results

/-- One file of the modelled filesystem.  Paths are absolute POSIX paths,
distinct and already normalized (`os.path.realpath`/`normcase`/`normpath`
are the identity: case-sensitive filesystem, no symlinks).  `extSupported`
models `FileManager.is_supported_file` (extension lookup); `supported`
models the `supported` field of `FileManager.get_file_info`; `content`
models what `FileManager.extract_text` returns for the file. -/
structure FsFile where
  path : Str
  mtime : Nat
  size : Nat
  sizeMb : ℚ
  fileType : Str
  extSupported : Bool
  supported : Bool
  content : Str
  deriving DecidableEq, Repr

/-- A filesystem snapshot; list order is directory-walk order. -/
abbrev Fs := List FsFile

/-- Stat a path. -/
def findFile (fs : Fs) (p : Str) : Option FsFile :=
  fs.find? (fun f => f.path = p)

/-- `os.path.exists`. -/
def fsExists (fs : Fs) (p : Str) : Bool := (findFile fs p).isSome

/-- `SearchIndexer._get_file_hash`: md5 of `f"{mtime}_{size}_{path}"`,
modelled as the injective triple (md5 is collision-free for the code's
purposes and only ever compared for equality); `none` models the `""`
returned when `os.stat` raises (missing file). -/
def getFileHash (fs : Fs) (p : Str) : Option (Nat × Nat × Str) :=
  (findFile fs p).map (fun f => (f.mtime, f.size, p))

/-- `os.path.dirname` (POSIX, non-root paths): everything before the last
`/`. -/
def dirname (p : Str) : Str := p.take (p.length - (basename p).length - 1)

example : dirname (pyStr "/data/sub/a.txt") = pyStr "/data/sub" := by decide

/-- `os.path.relpath base dir` for a path lying under `dir`: strip
`dir ++ "/"`. -/
def relpath (dir p : Str) : Str := p.drop (dir.length + 1)

/-- Membership of a path in the recursive `os.walk(dir)` scan. -/
def underDir (dir p : Str) : Bool := strStartsWith p (dir ++ ['/'])

/-- The directory scan shared by `index_directory` and
`load_index_from_cache`: every (supported-extension, non-excel) file under
`dir` — recursively via `os.walk`, or only the directory's own files via
`os.listdir`. -/
def walkCond (dir : Str) (recursive : Bool) (f : FsFile) : Bool :=
  (if recursive then underDir dir f.path else dirname f.path = dir) &&
    f.extSupported && f.fileType ≠ pyStr "excel"

def walkFiles (fs : Fs) (dir : Str) (recursive : Bool) : List Str :=
  (fs.filter (walkCond dir recursive)).map (·.path)

/-- One value of the `files` map of the on-disk cache JSON
(`.file_index.json`), as written by `save_index_to_cache`. -/
structure CacheEntry where
  content : Str
  title : Str
  size : ℚ
  modified : Nat
  fileType : Str
  fileHash : Option (Nat × Nat × Str)
  fullPath : Str
  deriving DecidableEq, Repr

/-- The cache JSON document: `files` (relative path → entry),
`last_indexed`, `total_files`, `index_version`. -/
structure CacheData where
  files : List (Str × CacheEntry)
  lastIndexed : Nat
  totalFiles : Nat
  version : Str
  deriving DecidableEq, Repr

/-- The mutable state of a `SearchIndexer`: its `SearchIndex` and the
`indexed_paths` set. -/
structure Indexer where
  index : SearchIndex
  indexedPaths : List Str
  deriving DecidableEq, Repr

/-- A fresh `SearchIndexer`. -/
def Indexer.empty : Indexer := ⟨SearchIndex.empty, []⟩

/-- `SearchIndexer.save_index_to_cache`: one entry per indexed path that has
a `file_info` record — full content, basename title, size, the record's
`indexed_time` as `modified`, type, a freshly computed file hash, and the
absolute path; keys are paths relative to the cache directory. -/
def saveIndexToCache (fs : Fs) (st : Indexer) (dir : Str) (now : Nat) :
    CacheData where
  files := st.indexedPaths.filterMap (fun p =>
    (alLookup st.index.fileInfo p).map (fun e =>
      (relpath dir p,
        { content := e.fullContent
          title := basename p
          size := e.meta.fileSizeMb
          modified := e.indexedTime
          fileType := e.meta.fileType
          fileHash := getFileHash fs p
          fullPath := p : CacheEntry })))
  lastIndexed := now
  totalFiles := st.indexedPaths.length
  version := pyStr "1.0"

/-- `SearchIndexer.remove_file_from_index`. -/
def Indexer.removeFromIndex (st : Indexer) (p : Str) : Indexer where
  index := st.index.removeFile p
  indexedPaths := st.indexedPaths.filter (fun q => q ≠ p)

/-- The restore loop of `SearchIndexer.load_index_from_cache` (the
`for relative_path, file_data in cache_data["files"].items()` loop): skip
entries whose `full_path` no longer exists; queue hash-mismatched entries
for reindexing; restore hash-matched entries into the in-memory index
straight from the cached `content`.  This loop contains no `extract_text`
call: the restored record's `full_content` is the cache's `content` field
verbatim, never the extraction provider's output. -/
def loadStep (fs : Fs) (now : Nat) (acc : List Str × Indexer)
    (ent : Str × CacheEntry) : List Str × Indexer :=
  let e := ent.2
  if fsExists fs e.fullPath then
    if getFileHash fs e.fullPath ≠ e.fileHash then
      (acc.1 ++ [e.fullPath], acc.2)
    else
      (acc.1,
        { index := acc.2.index.addFile e.fullPath e.content
            ⟨e.fileType, e.size⟩ now
          indexedPaths := setAdd acc.2.indexedPaths e.fullPath })
  else acc

def loadRestore (fs : Fs) (cd : CacheData) (st : Indexer) (now : Nat) :
    List Str × Indexer :=
  cd.files.foldl (loadStep fs now) ([], st)

/-- The normalized current-file set of the live directory scan
(`current_files` in the source; normalization is the identity here). -/
def scanCurrent (fs : Fs) (dir : Str) (recursive : Bool) : List Str :=
  (walkFiles fs dir recursive).foldl setAdd []

/-- The cached-path set the deletion diff compares against
(`cached_files`): all cached `full_path`s when recursive, only those whose
parent directory is `dir` otherwise. -/
def cachedSet (cd : CacheData) (dir : Str) (recursive : Bool) : List Str :=
  (cd.files.filter
    (fun ent => recursive || dirname ent.2.fullPath = dir)).foldl
    (fun acc ent => setAdd acc ent.2.fullPath) []

/-- Evict the deleted files from the in-memory index
(`for deleted_file in deleted_files: ...`). -/
def evictDeleted (deleted : List Str) (st : Indexer) : Indexer :=
  deleted.foldl
    (fun s d => if d ∈ s.indexedPaths then s.removeFromIndex d else s) st

/-- `SearchIndexer.load_index_from_cache`, returning
`(loaded, files_to_reindex, new_files, state')`.  For every cached entry
whose `full_path` still exists: hash mismatch queues the path for
reindexing, hash match restores the entry into the in-memory index straight
from the cached content (`load` contains no `extract_text` call).  Then the
live directory scan is diffed against the cached path set: files on disk
but not in the cache are new, cached paths missing from disk are deleted and
evicted from the in-memory index at once.  Path normalization is the
identity in the model (see `FsFile`). -/
def loadIndexFromCache (fs : Fs) (cache : Option CacheData) (st : Indexer)
    (dir : Str) (recursive : Bool) (now : Nat) :
    Bool × List Str × List Str × Indexer :=
  match cache with
  | none => (false, [], [], st)
  | some cd =>
    if cd.version ≠ pyStr "1.0" then (false, [], [], st)
    else
      let restored := loadRestore fs cd st now
      let currentFiles := scanCurrent fs dir recursive
      let cachedFiles := cachedSet cd dir recursive
      let newFiles := setDiff currentFiles cachedFiles
      let deletedFiles := setDiff cachedFiles currentFiles
      (true, restored.1, newFiles, evictDeleted deletedFiles restored.2)

/-- `SearchIndexer._index_single_file` folded over the work list (the
thread pool is modelled sequentially; the index lock serializes every
mutation and no verified property depends on completion order).  The third
component accumulates the extraction log: the paths on which
`FileManager.extract_text` was invoked. -/
def indexStep (fs : Fs) (now : Nat) (acc : Indexer × List Str × Nat)
    (p : Str) : Indexer × List Str × Nat :=
  match findFile fs p with
  | some f =>
    if f.supported then
      ({ index := acc.1.index.addFile p f.content ⟨f.fileType, f.sizeMb⟩ now
         indexedPaths := setAdd acc.1.indexedPaths p },
       acc.2.1 ++ [p], acc.2.2 + 1)
    else acc
  | none => acc

def indexFiles (fs : Fs) (st : Indexer) (now : Nat) (work : List Str) :
    Indexer × List Str × Nat :=
  work.foldl (indexStep fs now) (st, [], 0)

/-- `SearchIndexer.index_directory` over an existing directory, returning
`(cache file on disk after the run, state', extraction log)`.  Loads and
diffs the cache; indexes the changed + new files (or the whole scan when no
cache loaded); rewrites the cache when anything was indexed or a cache was
loaded.  All `datetime.now()` calls of one run return the run's tick
`now`. -/
def indexDirectory (fs : Fs) (cache : Option CacheData) (st : Indexer)
    (dir : Str) (recursive : Bool) (now : Nat) :
    Option CacheData × Indexer × List Str :=
  let loaded := loadIndexFromCache fs cache st dir recursive now
  let st₁ := loaded.2.2.2
  let filesToIndex :=
    if loaded.1 then loaded.2.1 ++ loaded.2.2.1 else walkFiles fs dir recursive
  if filesToIndex.length = 0 then
    if loaded.1 then (some (saveIndexToCache fs st₁ dir now), st₁, [])
    else (cache, st₁, [])
  else
    let done := indexFiles fs st₁ now filesToIndex
    if 0 < done.2.2 || loaded.1 then
      (some (saveIndexToCache fs done.1 dir now), done.1, done.2.1)
    else (cache, done.1, done.2.1)

theorem mem_setAdd {l : List Str} {x y : Str} :
    y ∈ setAdd l x ↔ y ∈ l ∨ y = x := by
  unfold setAdd
  split
  · rename_i h
    constructor
    · exact Or.inl
    · rintro (hy | rfl)
      · exact hy
      · exact h
  · simp [List.mem_append]

theorem setAdd_of_mem {l : List Str} {x : Str} (h : x ∈ l) :
    setAdd l x = l := if_pos h

theorem nodup_setAdd {l : List Str} {x : Str} (h : l.Nodup) :
    (setAdd l x).Nodup := by
  unfold setAdd
  split
  · exact h
  · rename_i hx
    simp [List.nodup_append, h, hx]

theorem setAdd_ne_nil {l : List Str} {x : Str} : setAdd l x ≠ [] := by
  unfold setAdd
  split
  · rename_i h
    exact fun hl => absurd (hl ▸ h) (List.not_mem_nil x)
  · simp

theorem mem_foldl_setAdd {l a : List Str} {y : Str} :
    y ∈ l.foldl setAdd a ↔ y ∈ a ∨ y ∈ l := by
  induction l generalizing a with
  | nil => simp
  | cons x xs ih =>
    simp only [List.foldl_cons, ih, mem_setAdd, List.mem_cons]
    tauto

theorem nodup_foldl_setAdd {l a : List Str} (h : a.Nodup) :
    (l.foldl setAdd a).Nodup := by
  induction l generalizing a with
  | nil => exact h
  | cons x xs ih => exact ih (nodup_setAdd h)

theorem foldl_setAdd_of_subset {l a : List Str} (h : ∀ x ∈ l, x ∈ a) :
    l.foldl setAdd a = a := by
  induction l with
  | nil => rfl
  | cons x xs ih =>
    have hx : setAdd a x = a := setAdd_of_mem (h x (by simp))
    simp only [List.foldl_cons, hx]
    exact ih (fun y hy => h y (by simp [hy]))

theorem foldl_setAdd_of_fresh {l a : List Str} (hn : l.Nodup)
    (h : ∀ x ∈ l, x ∉ a) : l.foldl setAdd a = a ++ l := by
  induction l generalizing a with
  | nil => simp
  | cons x xs ih =>
    have hx : setAdd a x = a ++ [x] := if_neg (h x (by simp))
    simp only [List.foldl_cons, hx]
    rw [ih hn.of_cons]
    · simp
    · intro y hy
      simp only [List.mem_append, List.mem_singleton]
      rintro (hya | rfl)
      · exact h y (by simp [hy]) hya
      · exact (List.nodup_cons.mp hn).1 hy

theorem mem_setUnion {a b : List Str} {y : Str} :
    y ∈ setUnion a b ↔ y ∈ a ∨ y ∈ b := mem_foldl_setAdd

theorem nodup_setUnion {a b : List Str} (h : a.Nodup) :
    (setUnion a b).Nodup := nodup_foldl_setAdd h

theorem mem_setInter {a b : List Str} {y : Str} :
    y ∈ setInter a b ↔ y ∈ a ∧ y ∈ b := by
  simp [setInter, List.mem_filter]

theorem nodup_setInter {a b : List Str} (h : a.Nodup) :
    (setInter a b).Nodup := h.filter _

theorem mem_setDiff {a b : List Str} {y : Str} :
    y ∈ setDiff a b ↔ y ∈ a ∧ y ∉ b := by
  simp [setDiff, List.mem_filter]

theorem nodup_setDiff {a b : List Str} (h : a.Nodup) :
    (setDiff a b).Nodup := h.filter _

theorem setDiff_self {a : List Str} : setDiff a a = [] := by
  simp [setDiff, List.filter_eq_nil_iff]

theorem alLookup_alInsert_self {α : Type} {l : List (Str × α)} {k : Str}
    {v : α} : alLookup (alInsert l k v) k = some v := by
  induction l with
  | nil => simp [alInsert, alLookup]
  | cons p rest ih =>
    by_cases h : p.1 = k
    · simp [alInsert, h, alLookup]
    · simp [alInsert, h, alLookup, ih]

theorem alLookup_alInsert_ne {α : Type} {l : List (Str × α)} {k k' : Str}
    {v : α} (h : k' ≠ k) : alLookup (alInsert l k v) k' = alLookup l k' := by
  induction l with
  | nil => simp [alInsert, alLookup, Ne.symm h]
  | cons p rest ih =>
    by_cases hp : p.1 = k
    · have hk' : p.1 ≠ k' := by rw [hp]; exact Ne.symm h
      simp [alInsert, hp, alLookup, Ne.symm h, hk']
    · simp [alInsert, hp, alLookup, ih]

theorem alLookup_alErase_self {α : Type} {l : List (Str × α)} {k : Str} :
    alLookup (alErase l k) k = none := by
  induction l with
  | nil => rfl
  | cons p rest ih =>
    by_cases hp : p.1 = k
    · simpa [alErase, hp] using ih
    · simpa [alErase, alLookup, hp] using ih

theorem alLookup_alErase_ne {α : Type} {l : List (Str × α)} {k k' : Str}
    (h : k' ≠ k) : alLookup (alErase l k) k' = alLookup l k' := by
  induction l with
  | nil => rfl
  | cons p rest ih =>
    by_cases hp : p.1 = k
    · have hk' : p.1 ≠ k' := by rw [hp]; exact Ne.symm h
      have he : alErase (p :: rest) k = alErase rest k := by
        simp [alErase, hp]
      rw [he, ih]
      simp [alLookup, hk']
    · have he : alErase (p :: rest) k = p :: alErase rest k := by
        simp [alErase, hp]
      rw [he]
      simp [alLookup, ih]

theorem alLookup_mem {α : Type} {l : List (Str × α)} {k : Str} {v : α}
    (h : alLookup l k = some v) : (k, v) ∈ l := by
  induction l with
  | nil => simp [alLookup] at h
  | cons p rest ih =>
    by_cases hp : p.1 = k
    · simp only [alLookup, hp, if_pos] at h
      obtain ⟨k0, v0⟩ := p
      simp_all
    · simp only [alLookup, hp, if_neg, not_false_iff] at h
      exact List.mem_cons_of_mem _ (ih h)

theorem alLookup_eq_none_of_not_mem {α : Type} {l : List (Str × α)} {k : Str}
    (h : k ∉ l.map Prod.fst) : alLookup l k = none := by
  induction l with
  | nil => rfl
  | cons p rest ih =>
    simp only [List.map_cons, List.mem_cons] at h
    push_neg at h
    have hpk : ¬p.1 = k := fun hh => h.1 hh.symm
    simp [alLookup, hpk, ih h.2]

theorem alErase_of_not_mem {α : Type} {l : List (Str × α)} {k : Str}
    (h : k ∉ l.map Prod.fst) : alErase l k = l := by
  refine List.filter_eq_self.mpr (fun p hp => ?_)
  simp only [decide_eq_true_eq]
  intro hpk
  exact h (hpk ▸ List.mem_map_of_mem Prod.fst hp)

theorem filterMap_eq_map_of {α β : Type} {l : List α} {f : α → Option β}
    {g : α → β} (h : ∀ x ∈ l, f x = some (g x)) : l.filterMap f = l.map g := by
  induction l with
  | nil => rfl
  | cons x xs ih =>
    rw [List.filterMap_cons, h x (by simp), List.map_cons,
      ih (fun y hy => h y (by simp [hy]))]

/-- The postings set of a token (`self.index[token]`, empty when absent). -/
def SearchIndex.postingsOf (st : SearchIndex) (t : Str) : List Str :=
  (alLookup st.index t).getD []

/-- Structural well-formedness of a `SearchIndex`, maintained by every
operation: each token appears at most once as a key (Python `dict`), and no
token maps to an empty postings set. -/
def SearchIndex.WF (st : SearchIndex) : Prop :=
  (st.index.map Prod.fst).Nodup ∧ ∀ e ∈ st.index, e.2 ≠ []

theorem WF_empty : SearchIndex.empty.WF := by
  constructor
  · simp [SearchIndex.empty]
  · intro e he
    simp [SearchIndex.empty] at he

theorem removeIdx_keys_sublist (ix : List (Str × List Str)) (p : Str) :
    ((removeIdx ix p).map Prod.fst).Sublist (ix.map Prod.fst) := by
  induction ix with
  | nil => simp [removeIdx]
  | cons e rest ih =>
    simp only [removeIdx, List.filterMap_cons] at *
    by_cases hp : p ∈ e.2
    · by_cases hemp : (e.2.filter (fun q => q ≠ p)).isEmpty
      · simp only [hp, if_pos, hemp]
        exact ih.cons e.1
      · simp only [hp, if_pos, hemp, Bool.false_eq_true, if_false,
          List.map_cons]
        exact ih.cons₂ e.1
    · simp only [hp, if_neg, List.map_cons, Bool.false_eq_true]
      simp only [if_false]
      exact ih.cons₂ e.1

theorem not_mem_removeIdx (ix : List (Str × List Str)) (p : Str) :
    ∀ e ∈ removeIdx ix p, p ∉ e.2 := by
  induction ix with
  | nil => simp [removeIdx]
  | cons e₀ rest ih =>
    intro e he
    simp only [removeIdx, List.filterMap_cons] at he
    by_cases hp : p ∈ e₀.2
    · by_cases hemp : (e₀.2.filter (fun q => q ≠ p)).isEmpty
      · simp only [hp, if_pos, hemp] at he
        exact ih e he
      · simp only [hp, if_pos, hemp, Bool.false_eq_true, if_false,
          List.mem_cons] at he
        rcases he with rfl | he
        · intro hmem
          simp only [List.mem_filter, decide_eq_true_eq] at hmem
          exact hmem.2 rfl
        · exact ih e he
    · simp only [hp, if_neg, Bool.false_eq_true, if_false,
        List.mem_cons] at he
      rcases he with rfl | he
      · exact hp
      · exact ih e he

theorem removeIdx_nonempty (ix : List (Str × List Str)) (p : Str)
    (h : ∀ e ∈ ix, e.2 ≠ []) : ∀ e ∈ removeIdx ix p, e.2 ≠ [] := by
  induction ix with
  | nil => simp [removeIdx]
  | cons e₀ rest ih =>
    intro e he
    have hrest : ∀ e ∈ rest, e.2 ≠ [] := fun e' he' => h e' (by simp [he'])
    simp only [removeIdx, List.filterMap_cons] at he
    by_cases hp : p ∈ e₀.2
    · by_cases hemp : (e₀.2.filter (fun q => q ≠ p)).isEmpty
      · simp only [hp, if_pos, hemp] at he
        exact ih hrest e he
      · simp only [hp, if_pos, hemp, Bool.false_eq_true, if_false,
          List.mem_cons] at he
        rcases he with rfl | he
        · simpa [List.isEmpty_iff] using hemp
        · exact ih hrest e he
    · simp only [hp, if_neg, Bool.false_eq_true, if_false,
        List.mem_cons] at he
      rcases he with rfl | he
      · exact h e (by simp)
      · exact ih hrest e he

theorem mem_removeIdx_of_mem (ix : List (Str × List Str)) (p : Str) :
    ∀ e ∈ removeIdx ix p, ∀ q ∈ e.2, ∃ e₀ ∈ ix, q ∈ e₀.2 := by
  induction ix with
  | nil => simp [removeIdx]
  | cons e₀ rest ih =>
    intro e he q hq
    simp only [removeIdx, List.filterMap_cons] at he
    by_cases hp : p ∈ e₀.2
    · by_cases hemp : (e₀.2.filter (fun q => q ≠ p)).isEmpty
      · simp only [hp, if_pos, hemp] at he
        obtain ⟨e₁, he₁, hq₁⟩ := ih e he q hq
        exact ⟨e₁, by simp [he₁], hq₁⟩
      · simp only [hp, if_pos, hemp, Bool.false_eq_true, if_false,
          List.mem_cons] at he
        rcases he with rfl | he
        · refine ⟨e₀, by simp, ?_⟩
          simp only [List.mem_filter] at hq
          exact hq.1
        · obtain ⟨e₁, he₁, hq₁⟩ := ih e he q hq
          exact ⟨e₁, by simp [he₁], hq₁⟩
    · simp only [hp, if_neg, Bool.false_eq_true, if_false,
        List.mem_cons] at he
      rcases he with rfl | he
      · exact ⟨e, by simp, hq⟩
      · obtain ⟨e₁, he₁, hq₁⟩ := ih e he q hq
        exact ⟨e₁, by simp [he₁], hq₁⟩


theorem alLookup_cons {α : Type} (k : Str) (v : α) (rest : List (Str × α))
    (t : Str) :
    alLookup ((k, v) :: rest) t = if k = t then some v else alLookup rest t :=
  rfl

theorem removeIdx_cons (e : Str × List Str) (rest : List (Str × List Str))
    (p : Str) :
    removeIdx (e :: rest) p =
      if p ∈ e.2 then
        if (e.2.filter (fun q => q ≠ p)).isEmpty then removeIdx rest p
        else (e.1, e.2.filter (fun q => q ≠ p)) :: removeIdx rest p
      else e :: removeIdx rest p := by
  by_cases hp : p ∈ e.2
  · by_cases hemp : (e.2.filter (fun q => q ≠ p)).isEmpty
    · rw [if_pos hp, if_pos hemp]
      simp only [removeIdx, List.filterMap_cons]
      rw [if_pos hp, if_pos hemp]
    · rw [if_pos hp, if_neg hemp]
      simp only [removeIdx, List.filterMap_cons]
      rw [if_pos hp, if_neg hemp]
  · rw [if_neg hp]
    simp only [removeIdx, List.filterMap_cons]
    rw [if_neg hp]


/-- The effect of `remove_file` on one (optional) postings set. -/
def removePostings (o : Option (List Str)) (p : Str) : Option (List Str) :=
  match o with
  | none => none
  | some l =>
    if p ∈ l then
      if (l.filter (fun q => q ≠ p)).isEmpty then none
      else some (l.filter (fun q => q ≠ p))
    else some l

theorem removePostings_some (l : List Str) (p : Str) :
    removePostings (some l) p =
      if p ∈ l then
        if (l.filter (fun q => q ≠ p)).isEmpty then none
        else some (l.filter (fun q => q ≠ p))
      else some l := rfl

theorem alLookup_removeIdx (ix : List (Str × List Str)) (p t : Str)
    (hn : (ix.map Prod.fst).Nodup) :
    alLookup (removeIdx ix p) t = removePostings (alLookup ix t) p := by
  induction ix with
  | nil => rfl
  | cons e₀ rest ih =>
    obtain ⟨k, l₀⟩ := e₀
    have hn' : (rest.map Prod.fst).Nodup := (List.nodup_cons.mp hn).2
    have hfresh : k ∉ rest.map Prod.fst := (List.nodup_cons.mp hn).1
    rw [removeIdx_cons]
    by_cases ht : k = t
    · subst ht
      have hnone : alLookup (removeIdx rest p) k = none :=
        alLookup_eq_none_of_not_mem
          (fun hmem => hfresh ((removeIdx_keys_sublist rest p).mem hmem))
      rw [alLookup_cons, if_pos rfl, removePostings_some]
      by_cases hp : p ∈ l₀
      · by_cases hemp : (l₀.filter (fun q => q ≠ p)).isEmpty
        · rw [if_pos hp, if_pos hemp, hnone, if_pos hp, if_pos hemp]
        · rw [if_pos hp, if_neg hemp, alLookup_cons, if_pos rfl,
            if_pos hp, if_neg hemp]
      · rw [if_neg hp, alLookup_cons, if_pos rfl, if_neg hp]
    · rw [alLookup_cons, if_neg ht]
      by_cases hp : p ∈ l₀
      · by_cases hemp : (l₀.filter (fun q => q ≠ p)).isEmpty
        · rw [if_pos hp, if_pos hemp, ih hn']
        · rw [if_pos hp, if_neg hemp, alLookup_cons, if_neg ht, ih hn']
      · rw [if_neg hp, alLookup_cons, if_neg ht, ih hn']

theorem postingsOf_removeFile (st : SearchIndex) (p t : Str) (h : st.WF) :
    (st.removeFile p).postingsOf t =
      (st.postingsOf t).filter (fun q => q ≠ p) := by
  unfold SearchIndex.postingsOf SearchIndex.removeFile
  rw [alLookup_removeIdx st.index p t h.1]
  rcases hl : alLookup st.index t with _ | l
  · rfl
  · rw [removePostings_some]
    by_cases hp : p ∈ l
    · by_cases hemp : (l.filter (fun q => q ≠ p)).isEmpty
      · rw [if_pos hp, if_pos hemp]
        simp only [List.isEmpty_iff] at hemp
        simp only [Option.getD_none, Option.getD_some]
        exact hemp.symm
      · rw [if_pos hp, if_neg hemp]
        simp only [Option.getD_some]
    · rw [if_neg hp]
      have hself : l.filter (fun q => q ≠ p) = l :=
        List.filter_eq_self.mpr (fun q hq => by
          simp only [ne_eq, decide_not, Bool.not_eq_true',
            decide_eq_false_iff_not]
          exact fun hqp => hp (hqp ▸ hq))
      simp only [Option.getD_some]
      exact hself.symm

theorem mem_postingsOf_removeFile {st : SearchIndex} {p t q : Str}
    (h : st.WF) :
    q ∈ (st.removeFile p).postingsOf t ↔
      q ∈ st.postingsOf t ∧ q ≠ p := by
  rw [postingsOf_removeFile st p t h]
  simp [List.mem_filter]

theorem setAdd_idem (l : List Str) (x : Str) :
    setAdd (setAdd l x) x = setAdd l x := by
  apply setAdd_of_mem
  exact mem_setAdd.mpr (Or.inr rfl)

theorem alLookup_postingsAdd_self (ix : List (Str × List Str)) (t p : Str) :
    alLookup (postingsAdd ix t p) t =
      some (setAdd ((alLookup ix t).getD []) p) := by
  induction ix with
  | nil => simp [postingsAdd, alLookup, setAdd]
  | cons e rest ih =>
    obtain ⟨k, l⟩ := e
    by_cases hk : k = t
    · subst hk
      simp [postingsAdd, alLookup]
    · simp only [postingsAdd, hk, if_neg, Bool.false_eq_true, if_false]
      rw [alLookup_cons, if_neg hk, alLookup_cons, if_neg hk, ih]

theorem alLookup_postingsAdd_ne (ix : List (Str × List Str)) (t t' p : Str)
    (h : t' ≠ t) :
    alLookup (postingsAdd ix t p) t' = alLookup ix t' := by
  induction ix with
  | nil => simp [postingsAdd, alLookup, Ne.symm h]
  | cons e rest ih =>
    obtain ⟨k, l⟩ := e
    by_cases hk : k = t
    · subst hk
      have hk' : k ≠ t' := fun hh => h hh.symm
      simp [postingsAdd, alLookup, hk']
    · simp only [postingsAdd, hk, if_neg, Bool.false_eq_true, if_false]
      rw [alLookup_cons, alLookup_cons, ih]

theorem alLookup_foldl_postingsAdd (toks : List Str)
    (ix : List (Str × List Str)) (p t : Str) :
    alLookup (toks.foldl (fun a tk => postingsAdd a tk p) ix) t =
      if t ∈ toks then some (setAdd ((alLookup ix t).getD []) p)
      else alLookup ix t := by
  induction toks generalizing ix with
  | nil => simp
  | cons t₀ ts ih =>
    rw [List.foldl_cons, ih]
    by_cases ht : t = t₀
    · subst ht
      by_cases hts : t ∈ ts
      · rw [if_pos hts, if_pos (by simp [hts]),
          alLookup_postingsAdd_self, Option.getD_some, setAdd_idem]
      · rw [if_neg hts, if_pos (by simp), alLookup_postingsAdd_self]
    · by_cases hts : t ∈ ts
      · rw [if_pos hts, if_pos (by simp [hts]),
          alLookup_postingsAdd_ne _ _ _ _ ht]
      · rw [if_neg hts, if_neg (by simp [ht, hts]),
          alLookup_postingsAdd_ne _ _ _ _ ht]

/-- The token list `add_file` indexes a path under:
`_tokenize(f"{basename(path)} {content}")`. -/
def fileTokens (path content : Str) : List Str :=
  tokenize (basename path ++ [' '] ++ content)

theorem addFile_index_eq (st : SearchIndex) (p c : Str) (m : Meta) (n : Nat) :
    (st.addFile p c m n).index =
      (fileTokens p c).dedup.foldl
        (fun a tk => postingsAdd a tk p) (st.removeFile p).index := rfl

theorem addFile_fileInfo_eq (st : SearchIndex) (p c : Str) (m : Meta)
    (n : Nat) :
    (st.addFile p c m n).fileInfo =
      alInsert (alErase st.fileInfo p) p ⟨m, n, c.take 200, c⟩ := rfl

theorem postingsOf_addFile (st : SearchIndex) (p c : Str) (m : Meta) (n : Nat)
    (t : Str) (h : st.WF) :
    (st.addFile p c m n).postingsOf t =
      if t ∈ fileTokens p c
      then setAdd ((st.postingsOf t).filter (fun q => q ≠ p)) p
      else (st.postingsOf t).filter (fun q => q ≠ p) := by
  unfold SearchIndex.postingsOf
  rw [addFile_index_eq, alLookup_foldl_postingsAdd]
  have hrm : (alLookup (st.removeFile p).index t).getD [] =
      ((alLookup st.index t).getD []).filter (fun q => q ≠ p) :=
    postingsOf_removeFile st p t h
  by_cases ht : t ∈ fileTokens p c
  · rw [if_pos (List.mem_dedup.mpr ht), if_pos ht, hrm, Option.getD_some]
  · rw [if_neg (fun hh => ht (List.mem_dedup.mp hh)), if_neg ht]
    exact hrm

theorem mem_postingsOf_addFile {st : SearchIndex} {p c : Str} {m : Meta}
    {n : Nat} {t q : Str} (h : st.WF) :
    q ∈ (st.addFile p c m n).postingsOf t ↔
      (q ∈ st.postingsOf t ∧ q ≠ p) ∨ (q = p ∧ t ∈ fileTokens p c) := by
  rw [postingsOf_addFile st p c m n t h]
  by_cases ht : t ∈ fileTokens p c
  · rw [if_pos ht]
    rw [mem_setAdd]
    simp only [List.mem_filter, ne_eq, decide_not, Bool.not_eq_true',
      decide_eq_false_iff_not]
    constructor
    · rintro (⟨hq, hqp⟩ | rfl)
      · exact Or.inl ⟨hq, hqp⟩
      · exact Or.inr ⟨rfl, ht⟩
    · rintro (⟨hq, hqp⟩ | ⟨rfl, _⟩)
      · exact Or.inl ⟨hq, hqp⟩
      · exact Or.inr rfl
  · rw [if_neg ht]
    simp only [List.mem_filter, ne_eq, decide_not, Bool.not_eq_true',
      decide_eq_false_iff_not]
    constructor
    · rintro ⟨hq, hqp⟩
      exact Or.inl ⟨hq, hqp⟩
    · rintro (⟨hq, hqp⟩ | ⟨rfl, hmem⟩)
      · exact ⟨hq, hqp⟩
      · exact absurd hmem ht

theorem addFile_fileInfo_self (st : SearchIndex) (p c : Str) (m : Meta)
    (n : Nat) :
    alLookup (st.addFile p c m n).fileInfo p =
      some ⟨m, n, c.take 200, c⟩ := by
  rw [addFile_fileInfo_eq]
  exact alLookup_alInsert_self

theorem addFile_fileInfo_ne (st : SearchIndex) (p c : Str) (m : Meta)
    (n : Nat) {q : Str} (h : q ≠ p) :
    alLookup (st.addFile p c m n).fileInfo q = alLookup st.fileInfo q := by
  rw [addFile_fileInfo_eq, alLookup_alInsert_ne h, alLookup_alErase_ne h]

theorem removeFile_fileInfo_self (st : SearchIndex) (p : Str) :
    alLookup (st.removeFile p).fileInfo p = none :=
  alLookup_alErase_self

theorem removeFile_fileInfo_ne (st : SearchIndex) (p : Str) {q : Str}
    (h : q ≠ p) :
    alLookup (st.removeFile p).fileInfo q = alLookup st.fileInfo q :=
  alLookup_alErase_ne h

theorem postingsAdd_keys (ix : List (Str × List Str)) (t p : Str) :
    (postingsAdd ix t p).map Prod.fst =
      if t ∈ ix.map Prod.fst then ix.map Prod.fst
      else ix.map Prod.fst ++ [t] := by
  induction ix with
  | nil => simp [postingsAdd]
  | cons e rest ih =>
    obtain ⟨k, l⟩ := e
    by_cases hk : k = t
    · subst hk
      simp [postingsAdd]
    · have hne : ¬t = k := fun hh => hk hh.symm
      simp only [postingsAdd, hk, Bool.false_eq_true, if_false,
        List.map_cons, ih, List.mem_cons, hne, false_or]
      by_cases ht : t ∈ rest.map Prod.fst
      · simp [ht]
      · simp [ht]

theorem postingsAdd_keys_nodup (ix : List (Str × List Str)) (t p : Str)
    (h : (ix.map Prod.fst).Nodup) :
    ((postingsAdd ix t p).map Prod.fst).Nodup := by
  rw [postingsAdd_keys]
  by_cases ht : t ∈ ix.map Prod.fst
  · simpa [ht] using h
  · simp [ht, List.nodup_append, h]

theorem postingsAdd_nonempty (ix : List (Str × List Str)) (t p : Str)
    (h : ∀ e ∈ ix, e.2 ≠ []) : ∀ e ∈ postingsAdd ix t p, e.2 ≠ [] := by
  induction ix with
  | nil =>
    intro e he
    simp only [postingsAdd, List.mem_singleton] at he
    subst he
    simp
  | cons e₀ rest ih =>
    intro e he
    obtain ⟨k, l⟩ := e₀
    by_cases hk : k = t
    · subst hk
      simp only [postingsAdd, if_pos, List.mem_cons] at he
      rcases he with rfl | he
      · exact setAdd_ne_nil
      · exact h e (by simp [he])
    · simp only [postingsAdd, hk, Bool.false_eq_true, if_false,
        List.mem_cons] at he
      rcases he with rfl | he
      · exact h (k, l) (by simp)
      · exact ih (fun e' he' => h e' (by simp [he'])) e he

theorem mem_postingsAdd_source (ix : List (Str × List Str)) (t p : Str) :
    ∀ e ∈ postingsAdd ix t p, ∀ x ∈ e.2,
      (∃ e₀ ∈ ix, x ∈ e₀.2) ∨ x = p := by
  induction ix with
  | nil =>
    intro e he x hx
    simp only [postingsAdd, List.mem_singleton] at he
    subst he
    simp only [List.mem_singleton] at hx
    exact Or.inr hx
  | cons e₀ rest ih =>
    intro e he x hx
    obtain ⟨k, l⟩ := e₀
    by_cases hk : k = t
    · subst hk
      simp only [postingsAdd, if_pos, List.mem_cons] at he
      rcases he with rfl | he
      · simp only at hx
        rcases mem_setAdd.mp hx with hxl | rfl
        · exact Or.inl ⟨(k, l), by simp, hxl⟩
        · exact Or.inr rfl
      · exact Or.inl ⟨e, by simp [he], hx⟩
    · simp only [postingsAdd, hk, Bool.false_eq_true, if_false,
        List.mem_cons] at he
      rcases he with rfl | he
      · exact Or.inl ⟨(k, l), by simp, hx⟩
      · rcases ih e he x hx with ⟨e₁, he₁, hx₁⟩ | rfl
        · exact Or.inl ⟨e₁, by simp [he₁], hx₁⟩
        · exact Or.inr rfl

theorem foldl_postingsAdd_keys_nodup (toks : List Str)
    (ix : List (Str × List Str)) (p : Str)
    (h : (ix.map Prod.fst).Nodup) :
    (((toks.foldl (fun a tk => postingsAdd a tk p) ix)).map Prod.fst).Nodup := by
  induction toks generalizing ix with
  | nil => exact h
  | cons t ts ih => exact ih _ (postingsAdd_keys_nodup ix t p h)

theorem foldl_postingsAdd_nonempty (toks : List Str)
    (ix : List (Str × List Str)) (p : Str) (h : ∀ e ∈ ix, e.2 ≠ []) :
    ∀ e ∈ toks.foldl (fun a tk => postingsAdd a tk p) ix, e.2 ≠ [] := by
  induction toks generalizing ix with
  | nil => exact h
  | cons t ts ih => exact ih _ (postingsAdd_nonempty ix t p h)

theorem foldl_postingsAdd_source (toks : List Str)
    (ix : List (Str × List Str)) (p : Str) :
    ∀ e ∈ toks.foldl (fun a tk => postingsAdd a tk p) ix, ∀ x ∈ e.2,
      (∃ e₀ ∈ ix, x ∈ e₀.2) ∨ x = p := by
  induction toks generalizing ix with
  | nil => exact fun e he x hx => Or.inl ⟨e, he, hx⟩
  | cons t ts ih =>
    intro e he x hx
    rcases ih _ e he x hx with ⟨e₁, he₁, hx₁⟩ | rfl
    · rcases mem_postingsAdd_source ix t p e₁ he₁ x hx₁ with h' | rfl
      · exact Or.inl h'
      · exact Or.inr rfl
    · exact Or.inr rfl

theorem WF_removeFile {st : SearchIndex} (h : st.WF) (p : Str) :
    (st.removeFile p).WF :=
  ⟨h.1.sublist (removeIdx_keys_sublist st.index p),
   removeIdx_nonempty st.index p h.2⟩

theorem WF_addFile {st : SearchIndex} (h : st.WF) (p c : Str) (m : Meta)
    (n : Nat) : (st.addFile p c m n).WF := by
  have hrm := WF_removeFile h p
  constructor
  · exact foldl_postingsAdd_keys_nodup _ _ _ hrm.1
  · exact foldl_postingsAdd_nonempty _ _ _ hrm.2

theorem mem_insertDesc {x z : Result} {l : List Result} :
    z ∈ insertDesc x l ↔ z = x ∨ z ∈ l := by
  induction l with
  | nil => simp [insertDesc]
  | cons y ys ih =>
    unfold insertDesc
    split
    · simp only [List.mem_cons, ih]
      tauto
    · simp only [List.mem_cons]

theorem length_insertDesc (x : Result) (l : List Result) :
    (insertDesc x l).length = l.length + 1 := by
  induction l with
  | nil => rfl
  | cons y ys ih =>
    unfold insertDesc
    by_cases hxy : x.relevanceScore ≤ y.relevanceScore
    · rw [if_pos hxy]
      simp [ih]
    · rw [if_neg hxy]
      simp

theorem insertDesc_sorted {x : Result} {l : List Result}
    (h : l.Pairwise (fun a b => b.relevanceScore ≤ a.relevanceScore)) :
    (insertDesc x l).Pairwise
      (fun a b => b.relevanceScore ≤ a.relevanceScore) := by
  induction l with
  | nil => simp [insertDesc]
  | cons y ys ih =>
    unfold insertDesc
    split
    · rename_i hxy
      rw [List.pairwise_cons] at h ⊢
      refine ⟨fun z hz => ?_, ih h.2⟩
      rcases mem_insertDesc.mp hz with rfl | hz
      · exact hxy
      · exact h.1 z hz
    · rename_i hxy
      push_neg at hxy
      rw [List.pairwise_cons]
      refine ⟨fun z hz => ?_, h⟩
      rcases List.mem_cons.mp hz with rfl | hz
      · exact le_of_lt hxy
      · exact le_trans ((List.pairwise_cons.mp h).1 z hz) (le_of_lt hxy)

theorem sortByScoreDesc_sorted (l : List Result) :
    (sortByScoreDesc l).Pairwise
      (fun a b => b.relevanceScore ≤ a.relevanceScore) := by
  have main : ∀ (l acc : List Result),
      acc.Pairwise (fun a b => b.relevanceScore ≤ a.relevanceScore) →
      (l.foldl (fun acc x => insertDesc x acc) acc).Pairwise
        (fun a b => b.relevanceScore ≤ a.relevanceScore) := by
    intro l
    induction l with
    | nil => exact fun acc h => h
    | cons x xs ih => exact fun acc h => ih _ (insertDesc_sorted h)
  exact main l [] (by simp)

theorem mem_sortByScoreDesc {z : Result} {l : List Result} :
    z ∈ sortByScoreDesc l ↔ z ∈ l := by
  have main : ∀ (l acc : List Result),
      z ∈ l.foldl (fun acc x => insertDesc x acc) acc ↔ z ∈ acc ∨ z ∈ l := by
    intro l
    induction l with
    | nil => simp
    | cons x xs ih =>
      intro acc
      rw [List.foldl_cons, ih, mem_insertDesc]
      simp only [List.mem_cons]
      tauto
  rw [sortByScoreDesc, main]
  simp

theorem length_sortByScoreDesc (l : List Result) :
    (sortByScoreDesc l).length = l.length := by
  have main : ∀ (l acc : List Result),
      (l.foldl (fun acc x => insertDesc x acc) acc).length =
        acc.length + l.length := by
    intro l
    induction l with
    | nil => simp
    | cons x xs ih =>
      intro acc
      rw [List.foldl_cons, ih, length_insertDesc]
      simp only [List.length_cons]
      omega
  rw [sortByScoreDesc, main]
  simp

theorem map_eq_self_of {α : Type} {l : List α} {f : α → α}
    (h : ∀ c ∈ l, f c = c) : l.map f = l := by
  induction l with
  | nil => rfl
  | cons c cs ih =>
    rw [List.map_cons, h c (by simp), ih (fun c' hc' => h c' (by simp [hc']))]

theorem pyLower_of_space {c : Char} (h : isPySpace c = true) :
    pyLower c = c := by
  simp only [isPySpace, Bool.or_eq_true, decide_eq_true_eq] at h
  rcases h with ((((rfl | rfl) | rfl) | rfl) | rfl) | rfl <;> decide

theorem stripChar_of_space {c : Char} (h : isPySpace c = true) :
    stripChar c = c := by
  have hk : keepChar c = true := by
    simp [keepChar, h]
  simp [stripChar, hk]

theorem splitWs_cons_space (c : Char) (cs : Str) (h : isPySpace c = true) :
    splitWs (c :: cs) = splitWs cs := by
  simp [splitWs, h]

theorem splitWs_all_space {l : Str} (h : ∀ c ∈ l, isPySpace c = true) :
    splitWs l = [] := by
  induction l with
  | nil => rfl
  | cons c cs ih =>
    rw [splitWs_cons_space c cs (h c (by simp))]
    exact ih (fun c' hc' => h c' (by simp [hc']))

theorem tokenize_of_all_space {q : Str} (h : q.all isPySpace = true) :
    tokenize q = [] := by
  rw [List.all_eq_true] at h
  unfold tokenize
  have h1 : q.map pyLower = q :=
    map_eq_self_of (fun c hc => pyLower_of_space (h c hc))
  have h2 : q.map stripChar = q :=
    map_eq_self_of (fun c hc => stripChar_of_space (h c hc))
  rw [h1, h2, splitWs_all_space h]
  rfl

theorem tokenize_singleton (c : Char) : tokenize [c] = [] := by
  unfold tokenize
  simp only [List.map_cons, List.map_nil]
  by_cases h : isPySpace (stripChar (pyLower c)) = true
  · rw [splitWs_cons_space _ _ h]
    rfl
  · have hs : splitWs [stripChar (pyLower c)] =
        [[stripChar (pyLower c)]] := by
      simp [splitWs, h]
    rw [hs]
    simp

/-- The result record `search` builds for one candidate path. -/
def mkResult (st : SearchIndex) (qts : List Str) (p : Str) : Option Result :=
  (alLookup st.fileInfo p).map (fun e =>
    { filePath := p
      filename := basename p
      fileType := e.meta.fileType
      fileSizeMb := e.meta.fileSizeMb
      indexedTime := e.indexedTime
      relevanceScore := st.calculateRelevance p qts })

theorem search_eq_of_tokens {st : SearchIndex} {q : Str} {maxResults : Nat}
    (h : tokenize q ≠ []) :
    st.search q maxResults =
      sortByScoreDesc
        (((st.candAll (tokenize q) maxResults).take maxResults).filterMap
          (mkResult st (tokenize q))) := by
  have hsp : ¬(q.all isPySpace = true) := fun hsp => h (tokenize_of_all_space hsp)
  unfold SearchIndex.search
  rw [if_neg hsp]
  split
  · rename_i heq
    exact absurd heq h
  · rfl

theorem search_of_no_tokens {st : SearchIndex} {q : Str} {maxResults : Nat}
    (h : tokenize q = []) : st.search q maxResults = [] := by
  unfold SearchIndex.search
  by_cases hsp : q.all isPySpace = true
  · rw [if_pos hsp]
  · rw [if_neg hsp]
    split
    · rfl
    · rename_i t ts heq
      rw [heq] at h
      exact absurd h (List.cons_ne_nil t ts)

theorem length_search_le (st : SearchIndex) (q : Str) (maxResults : Nat) :
    (st.search q maxResults).length ≤ maxResults := by
  by_cases h : tokenize q = []
  · rw [search_of_no_tokens h]
    simp
  · rw [search_eq_of_tokens h, length_sortByScoreDesc]
    exact le_trans (List.length_filterMap_le _ _) (List.length_take_le _ _)

theorem mem_search {st : SearchIndex} {q : Str} {maxResults : Nat}
    {r : Result} (h : r ∈ st.search q maxResults) :
    ∃ p ∈ (st.candAll (tokenize q) maxResults).take maxResults,
      ∃ e, alLookup st.fileInfo p = some e ∧ r.filePath = p ∧
        r.relevanceScore = st.calculateRelevance p (tokenize q) := by
  by_cases htk : tokenize q = []
  · rw [search_of_no_tokens htk] at h
    exact absurd h (List.not_mem_nil r)
  · rw [search_eq_of_tokens htk, mem_sortByScoreDesc,
      List.mem_filterMap] at h
    obtain ⟨p, hp, hr⟩ := h
    unfold mkResult at hr
    rcases he : alLookup st.fileInfo p with _ | e
    · rw [he] at hr
      simp at hr
    · rw [he] at hr
      rw [Option.map_some'] at hr
      rw [Option.some_inj] at hr
      exact ⟨p, hp, e, he, by rw [← hr], by rw [← hr]⟩

theorem mem_candidates_source {st : SearchIndex} {t q : Str}
    (h : q ∈ st.candidates t) : ∃ e ∈ st.index, q ∈ e.2 := by
  have main : ∀ (ix : List (Str × List Str)) (acc : List Str),
      q ∈ ix.foldl
        (fun acc e =>
          if strStartsWith e.1 t || strContains t e.1 then setUnion acc e.2
          else acc) acc →
      q ∈ acc ∨ ∃ e ∈ ix, q ∈ e.2 := by
    intro ix
    induction ix with
    | nil => exact fun acc h => Or.inl h
    | cons e₀ rest ih =>
      intro acc h
      rw [List.foldl_cons] at h
      by_cases hc : (strStartsWith e₀.1 t || strContains t e₀.1) = true
      · rw [if_pos hc] at h
        rcases ih _ h with hacc | ⟨e₁, he₁, hq₁⟩
        · rcases mem_setUnion.mp hacc with hacc' | hq'
          · exact Or.inl hacc'
          · exact Or.inr ⟨e₀, by simp, hq'⟩
        · exact Or.inr ⟨e₁, by simp [he₁], hq₁⟩
      · rw [if_neg hc] at h
        rcases ih _ h with hacc | ⟨e₁, he₁, hq₁⟩
        · exact Or.inl hacc
        · exact Or.inr ⟨e₁, by simp [he₁], hq₁⟩
  unfold SearchIndex.candidates at h
  rcases main st.index _ h with hexact | hrest
  · rcases hl : alLookup st.index t with _ | l
    · rw [hl] at hexact
      exact absurd hexact (List.not_mem_nil q)
    · rw [hl] at hexact
      rcases mem_setUnion.mp hexact with hnil | hql
      · exact absurd hnil (List.not_mem_nil q)
      · exact ⟨(t, l), alLookup_mem hl, hql⟩
  · exact hrest

theorem mem_foldl_setInter {p : Str} {rs : List (List Str)} {r : List Str}
    (h : p ∈ rs.foldl setInter r) : p ∈ r ∧ ∀ s ∈ rs, p ∈ s := by
  induction rs generalizing r with
  | nil => exact ⟨h, by simp⟩
  | cons s ss ih =>
    rw [List.foldl_cons] at h
    obtain ⟨hmem, hall⟩ := ih h
    obtain ⟨hr, hs⟩ := mem_setInter.mp hmem
    exact ⟨hr, fun s' hs' => by
      rcases List.mem_cons.mp hs' with rfl | hs'
      · exact hs
      · exact hall s' hs'⟩

theorem mem_andListOf {p : Str} {trs : List (List Str)}
    (h : p ∈ andListOf trs) : ∀ cs ∈ trs, p ∈ cs := by
  rcases trs with _ | ⟨r, rs⟩
  · simp [andListOf] at h
  · obtain ⟨hr, hall⟩ := mem_foldl_setInter (h := h)
    intro cs hcs
    rcases List.mem_cons.mp hcs with rfl | hcs
    · exact hr
    · exact hall cs hcs

theorem mem_foldl_setUnion {p : Str} {rs : List (List Str)} {a : List Str} :
    p ∈ rs.foldl setUnion a ↔ p ∈ a ∨ ∃ cs ∈ rs, p ∈ cs := by
  induction rs generalizing a with
  | nil => simp
  | cons s ss ih =>
    rw [List.foldl_cons, ih, mem_setUnion]
    constructor
    · rintro ((ha | hs) | ⟨cs, hcs, hp⟩)
      · exact Or.inl ha
      · exact Or.inr ⟨s, by simp, hs⟩
      · exact Or.inr ⟨cs, by simp [hcs], hp⟩
    · rintro (ha | ⟨cs, hcs, hp⟩)
      · exact Or.inl (Or.inl ha)
      · rcases List.mem_cons.mp hcs with rfl | hcs
        · exact Or.inl (Or.inr hp)
        · exact Or.inr ⟨cs, hcs, hp⟩

theorem mem_orListOf {p : Str} {trs : List (List Str)} :
    p ∈ orListOf trs ↔ ∃ cs ∈ trs, p ∈ cs := by
  unfold orListOf
  rw [mem_foldl_setUnion]
  simp

theorem nodup_candidates (st : SearchIndex) (t : Str) :
    (st.candidates t).Nodup := by
  have main : ∀ (ix : List (Str × List Str)) (acc : List Str), acc.Nodup →
      (ix.foldl
        (fun acc e =>
          if strStartsWith e.1 t || strContains t e.1 then setUnion acc e.2
          else acc) acc).Nodup := by
    intro ix
    induction ix with
    | nil => exact fun acc h => h
    | cons e₀ rest ih =>
      intro acc h
      rw [List.foldl_cons]
      by_cases hc : (strStartsWith e₀.1 t || strContains t e₀.1) = true
      · rw [if_pos hc]
        exact ih _ (nodup_setUnion h)
      · rw [if_neg hc]
        exact ih _ h
  unfold SearchIndex.candidates
  apply main
  rcases alLookup st.index t with _ | l
  · simp
  · exact nodup_setUnion (by simp)

theorem nodup_andListOf (st : SearchIndex) (qts : List Str) :
    (andListOf (st.tokenResults qts)).Nodup := by
  rcases qts with _ | ⟨t, ts⟩
  · simp [SearchIndex.tokenResults, andListOf]
  · have main : ∀ (rs : List (List Str)) (r : List Str), r.Nodup →
        (rs.foldl setInter r).Nodup := by
      intro rs
      induction rs with
      | nil => exact fun r h => h
      | cons s ss ih => exact fun r h => ih _ (nodup_setInter h)
    exact main _ _ (nodup_candidates st t)

theorem nodup_orListOf (trs : List (List Str)) : (orListOf trs).Nodup := by
  have main : ∀ (rs : List (List Str)) (a : List Str), a.Nodup →
      (rs.foldl setUnion a).Nodup := by
    intro rs
    induction rs with
    | nil => exact fun a h => h
    | cons s ss ih => exact fun a h => ih _ (nodup_setUnion h)
  exact main _ _ (by simp)

theorem candAll_eq (st : SearchIndex) (qts : List Str) (maxResults : Nat) :
    st.candAll qts maxResults =
      if (andListOf (st.tokenResults qts)).length < maxResults / 2 then
        andListOf (st.tokenResults qts) ++
          setDiff (orListOf (st.tokenResults qts))
            (andListOf (st.tokenResults qts))
      else andListOf (st.tokenResults qts) := rfl

theorem nodup_candAll (st : SearchIndex) (qts : List Str) (maxResults : Nat) :
    (st.candAll qts maxResults).Nodup := by
  rw [candAll_eq]
  split
  · rw [List.nodup_append]
    refine ⟨nodup_andListOf st qts, nodup_setDiff (nodup_orListOf _), ?_⟩
    intro x hx hx'
    exact (mem_setDiff.mp hx').2 hx
  · exact nodup_andListOf st qts

/-- One mutating `SearchIndex` operation (`search` reads the state but never
mutates it: every `self.index` access in `search`, `_calculate_relevance`
and `_highlight_matches` is membership-guarded or iterates existing
entries, so the `defaultdict` is never extended there). -/
inductive IndexOp where
  | add (path content : Str) (meta : Meta) (now : Nat)
  | remove (path : Str)
  deriving DecidableEq, Repr

/-- Apply one operation. -/
def applyOp (st : SearchIndex) : IndexOp → SearchIndex
  | .add p c m n => st.addFile p c m n
  | .remove p => st.removeFile p

/-- The state reached from a fresh `SearchIndex` by a sequence of
`add_file` / `remove_file` calls. -/
def applyOps (ops : List IndexOp) : SearchIndex :=
  ops.foldl applyOp SearchIndex.empty

/-- The content supplied at the most recent `add_file` for a path that was
not followed by a `remove_file` of the same path (`add_file` itself begins
by removing the path, so only the latest add is live). -/
def liveContent (ops : List IndexOp) (path : Str) : Option Str :=
  ops.foldl
    (fun acc op =>
      match op with
      | .add p c _ _ => if p = path then some c else acc
      | .remove p => if p = path then none else acc)
    none

theorem WF_applyOps (ops : List IndexOp) : (applyOps ops).WF := by
  have main : ∀ (ops : List IndexOp) (st : SearchIndex), st.WF →
      (ops.foldl applyOp st).WF := by
    intro ops
    induction ops with
    | nil => exact fun st h => h
    | cons op rest ih =>
      intro st h
      rw [List.foldl_cons]
      refine ih _ ?_
      rcases op with ⟨p, c, m, n⟩ | p
      · exact WF_addFile h p c m n
      · exact WF_removeFile h p
  exact main ops SearchIndex.empty WF_empty

theorem applyOps_append_one (ops : List IndexOp) (op : IndexOp) :
    applyOps (ops ++ [op]) = applyOp (applyOps ops) op := by
  unfold applyOps
  rw [List.foldl_append]
  rfl

theorem liveContent_append_one (ops : List IndexOp) (op : IndexOp)
    (path : Str) :
    liveContent (ops ++ [op]) path =
      match op with
      | .add p c _ _ => if p = path then some c else liveContent ops path
      | .remove p => if p = path then none else liveContent ops path := by
  unfold liveContent
  rw [List.foldl_append]
  rfl

theorem postings_applyOps_char (ops : List IndexOp) (path t : Str) :
    path ∈ (applyOps ops).postingsOf t ↔
      ∃ c, liveContent ops path = some c ∧ t ∈ fileTokens path c := by
  induction ops using List.reverseRecOn with
  | nil =>
    simp only [applyOps, List.foldl_nil, liveContent]
    constructor
    · intro h
      exact absurd h (by simp [SearchIndex.postingsOf, SearchIndex.empty,
        alLookup])
    · rintro ⟨c, hc, _⟩
      exact absurd hc (by simp)
  | append_singleton ops op ih =>
    rw [applyOps_append_one, liveContent_append_one]
    rcases op with ⟨p, c, m, n⟩ | p
    · show path ∈ ((applyOps ops).addFile p c m n).postingsOf t ↔ _
      rw [mem_postingsOf_addFile (WF_applyOps ops)]
      by_cases hp : p = path
      · subst hp
        simp only [eq_self_iff_true, if_true]
        constructor
        · rintro (⟨_, hne⟩ | ⟨_, hmem⟩)
          · exact absurd rfl hne
          · exact ⟨c, rfl, hmem⟩
        · rintro ⟨c', hc', hmem⟩
          rw [Option.some_inj] at hc'
          exact Or.inr ⟨trivial, hc' ▸ hmem⟩
      · simp only [if_neg hp]
        rw [← ih]
        constructor
        · rintro (⟨hmem, _⟩ | ⟨rfl, _⟩)
          · exact hmem
          · exact absurd rfl hp
        · intro hmem
          exact Or.inl ⟨hmem, fun hh => hp hh.symm⟩
    · show path ∈ ((applyOps ops).removeFile p).postingsOf t ↔ _
      rw [mem_postingsOf_removeFile (WF_applyOps ops)]
      by_cases hp : p = path
      · subst hp
        simp only [eq_self_iff_true, if_true]
        constructor
        · rintro ⟨_, hne⟩
          exact absurd rfl hne
        · rintro ⟨c', hc', _⟩
          exact absurd hc' (by simp)
      · simp only [if_neg hp]
        rw [← ih]
        constructor
        · rintro ⟨hmem, _⟩
          exact hmem
        · intro hmem
          exact ⟨hmem, fun hh => hp hh.symm⟩

/-- Metadata invariant: every path in any postings set has a `file_info`
record. -/
def InfoInv (st : SearchIndex) : Prop :=
  ∀ e ∈ st.index, ∀ x ∈ e.2, (alLookup st.fileInfo x).isSome

theorem InfoInv_removeFile {st : SearchIndex} (h : InfoInv st) (p : Str) :
    InfoInv (st.removeFile p) := by
  intro e he x hx
  have hxp : x ≠ p := fun hh => not_mem_removeIdx st.index p e he (hh ▸ hx)
  obtain ⟨e₀, he₀, hx₀⟩ := mem_removeIdx_of_mem st.index p e he x hx
  rw [show (st.removeFile p).fileInfo = alErase st.fileInfo p from rfl,
    alLookup_alErase_ne hxp]
  exact h e₀ he₀ x hx₀

theorem InfoInv_addFile {st : SearchIndex} (h : InfoInv st) (p c : Str)
    (m : Meta) (n : Nat) : InfoInv (st.addFile p c m n) := by
  intro e he x hx
  rcases foldl_postingsAdd_source _ _ _ e he x hx with ⟨e₀, he₀, hx₀⟩ | rfl
  · have hxp : x ≠ p :=
      fun hh => not_mem_removeIdx st.index p e₀ he₀ (hh ▸ hx₀)
    rw [addFile_fileInfo_ne st p c m n hxp]
    obtain ⟨e₁, he₁, hx₁⟩ := mem_removeIdx_of_mem st.index p e₀ he₀ x hx₀
    exact h e₁ he₁ x hx₁
  · rw [addFile_fileInfo_self]
    rfl

theorem InfoInv_applyOps (ops : List IndexOp) : InfoInv (applyOps ops) := by
  have main : ∀ (ops : List IndexOp) (st : SearchIndex), InfoInv st →
      InfoInv (ops.foldl applyOp st) := by
    intro ops
    induction ops with
    | nil => exact fun st h => h
    | cons op rest ih =>
      intro st h
      rw [List.foldl_cons]
      refine ih _ ?_
      rcases op with ⟨p, c, m, n⟩ | p
      · exact InfoInv_addFile h p c m n
      · exact InfoInv_removeFile h p
  refine main ops SearchIndex.empty ?_
  intro e he
  exact absurd he (by simp [SearchIndex.empty])

/-- The record stored by `add_file` for a file indexed from disk. -/
def FsFile.entry (f : FsFile) (now : Nat) : FileEntry :=
  ⟨⟨f.fileType, f.sizeMb⟩, now, f.content.take 200, f.content⟩

/-- The record restored by `load_index_from_cache` for a hash-matched
cache entry. -/
def restoreEntry (ent : Str × CacheEntry) (now : Nat) : FileEntry :=
  ⟨⟨ent.2.fileType, ent.2.size⟩, now, ent.2.content.take 200, ent.2.content⟩

theorem findFile_of_mem {fs : Fs} (hn : (fs.map FsFile.path).Nodup)
    {f : FsFile} (hf : f ∈ fs) : findFile fs f.path = some f := by
  induction fs with
  | nil => exact absurd hf (List.not_mem_nil f)
  | cons g rest ih =>
    rcases List.mem_cons.mp hf with rfl | hf'
    · simp [findFile, List.find?_cons]
    · have hgf : g.path ≠ f.path := by
        intro hh
        exact (List.nodup_cons.mp hn).1
          (hh ▸ List.mem_map_of_mem FsFile.path hf')
      have : findFile rest f.path = some f :=
        ih (List.nodup_cons.mp hn).2 hf'
      simpa [findFile, List.find?_cons, hgf] using this

theorem mem_walkFiles {fs : Fs} {dir : Str} {recursive : Bool} {p : Str} :
    p ∈ walkFiles fs dir recursive ↔
      ∃ f ∈ fs, walkCond dir recursive f ∧ f.path = p := by
  unfold walkFiles
  rw [List.mem_map]
  constructor
  · rintro ⟨f, hf, rfl⟩
    obtain ⟨hfs, hc⟩ := List.mem_filter.mp hf
    exact ⟨f, hfs, hc, rfl⟩
  · rintro ⟨f, hfs, hc, rfl⟩
    exact ⟨f, List.mem_filter.mpr ⟨hfs, hc⟩, rfl⟩

theorem nodup_walkFiles {fs : Fs} (dir : Str) (recursive : Bool)
    (hn : (fs.map FsFile.path).Nodup) :
    (walkFiles fs dir recursive).Nodup := by
  unfold walkFiles
  exact hn.sublist ((List.filter_sublist fs).map FsFile.path)

theorem foldl_indexStep_indexedPaths (fs : Fs) (now : Nat)
    (work : List Str) (acc : Indexer × List Str × Nat)
    (hw : ∀ p ∈ work, ∃ f, findFile fs p = some f ∧ f.supported = true) :
    (work.foldl (indexStep fs now) acc).1.indexedPaths =
      work.foldl setAdd acc.1.indexedPaths := by
  induction work generalizing acc with
  | nil => rfl
  | cons p ps ih =>
    obtain ⟨f, hf, hsup⟩ := hw p (by simp)
    rw [List.foldl_cons, List.foldl_cons,
      show indexStep fs now acc p =
        ({ index := acc.1.index.addFile p f.content ⟨f.fileType, f.sizeMb⟩ now
           indexedPaths := setAdd acc.1.indexedPaths p },
         acc.2.1 ++ [p], acc.2.2 + 1) by
        unfold indexStep
        rw [hf]
        simp [hsup]]
    exact ih _ (fun q hq => hw q (by simp [hq]))

theorem foldl_indexStep_count (fs : Fs) (now : Nat) (work : List Str)
    (acc : Indexer × List Str × Nat)
    (hw : ∀ p ∈ work, ∃ f, findFile fs p = some f ∧ f.supported = true) :
    (work.foldl (indexStep fs now) acc).2.2 = acc.2.2 + work.length := by
  induction work generalizing acc with
  | nil => simp
  | cons p ps ih =>
    obtain ⟨f, hf, hsup⟩ := hw p (by simp)
    rw [List.foldl_cons,
      show indexStep fs now acc p =
        ({ index := acc.1.index.addFile p f.content ⟨f.fileType, f.sizeMb⟩ now
           indexedPaths := setAdd acc.1.indexedPaths p },
         acc.2.1 ++ [p], acc.2.2 + 1) by
        unfold indexStep
        rw [hf]
        simp [hsup]]
    rw [ih _ (fun q hq => hw q (by simp [hq]))]
    simp only [List.length_cons]
    omega

theorem foldl_indexStep_fileInfo_ne (fs : Fs) (now : Nat) (work : List Str)
    (acc : Indexer × List Str × Nat) {q : Str} (hq : q ∉ work) :
    alLookup (work.foldl (indexStep fs now) acc).1.index.fileInfo q =
      alLookup acc.1.index.fileInfo q := by
  induction work generalizing acc with
  | nil => rfl
  | cons p ps ih =>
    have hqp : q ≠ p := fun hh => hq (by simp [hh])
    have hqps : q ∉ ps := fun hh => hq (by simp [hh])
    rw [List.foldl_cons, ih _ hqps]
    unfold indexStep
    rcases findFile fs p with _ | f
    · rfl
    · by_cases hsup : f.supported
      · simp only [hsup, if_pos]
        exact addFile_fileInfo_ne _ _ _ _ _ hqp
      · simp [hsup]

theorem foldl_indexStep_fileInfo_mem (fs : Fs) (now : Nat)
    (work : List Str) (acc : Indexer × List Str × Nat) {p : Str} {f : FsFile}
    (hmem : p ∈ work) (hnd : work.Nodup)
    (hf : findFile fs p = some f) (hsup : f.supported = true) :
    alLookup (work.foldl (indexStep fs now) acc).1.index.fileInfo p =
      some (f.entry now) := by
  induction work generalizing acc with
  | nil => exact absurd hmem (List.not_mem_nil p)
  | cons p₀ ps ih =>
    rcases List.mem_cons.mp hmem with rfl | hmem'
    · have hps : p ∉ ps := (List.nodup_cons.mp hnd).1
      rw [List.foldl_cons, foldl_indexStep_fileInfo_ne fs now ps _ hps]
      unfold indexStep
      rw [hf]
      simp only [hsup, if_pos]
      exact addFile_fileInfo_self _ _ _ _ _
    · rw [List.foldl_cons]
      exact ih _ hmem' (List.nodup_cons.mp hnd).2

/-- The reindex decision of the restore loop for one cache entry: `some
full_path` when the file exists and its hash mismatches. -/
def reindexFlag (fs : Fs) (ent : Str × CacheEntry) : Option Str :=
  if fsExists fs ent.2.fullPath then
    if getFileHash fs ent.2.fullPath ≠ ent.2.fileHash then some ent.2.fullPath
    else none
  else none

/-- The restore decision of the restore loop for one cache entry: `some
full_path` when the file exists and its hash matches. -/
def restoreFlag (fs : Fs) (ent : Str × CacheEntry) : Option Str :=
  if fsExists fs ent.2.fullPath then
    if getFileHash fs ent.2.fullPath ≠ ent.2.fileHash then none
    else some ent.2.fullPath
  else none

theorem foldl_loadStep_fst (fs : Fs) (now : Nat) (ents : List (Str × CacheEntry))
    (acc : List Str × Indexer) :
    (ents.foldl (loadStep fs now) acc).1 =
      acc.1 ++ ents.filterMap (reindexFlag fs) := by
  induction ents generalizing acc with
  | nil => simp
  | cons ent rest ih =>
    rw [List.foldl_cons, List.filterMap_cons, ih]
    unfold loadStep reindexFlag
    by_cases hex : fsExists fs ent.2.fullPath
    · by_cases hh : getFileHash fs ent.2.fullPath ≠ ent.2.fileHash
      · rw [if_pos hex, if_pos hh, if_pos hex, if_pos hh]
        simp
      · rw [if_pos hex, if_neg hh, if_pos hex, if_neg hh]
    · rw [if_neg hex, if_neg hex]

theorem loadStep_reindex {fs : Fs} {now : Nat} {acc : List Str × Indexer}
    {ent : Str × CacheEntry} (hex : fsExists fs ent.2.fullPath = true)
    (hh : getFileHash fs ent.2.fullPath ≠ ent.2.fileHash) :
    loadStep fs now acc ent = (acc.1 ++ [ent.2.fullPath], acc.2) := by
  unfold loadStep
  rw [if_pos hex, if_pos hh]

theorem loadStep_restore {fs : Fs} {now : Nat} {acc : List Str × Indexer}
    {ent : Str × CacheEntry} (hex : fsExists fs ent.2.fullPath = true)
    (hh : getFileHash fs ent.2.fullPath = ent.2.fileHash) :
    loadStep fs now acc ent =
      (acc.1,
        { index := acc.2.index.addFile ent.2.fullPath ent.2.content
            ⟨ent.2.fileType, ent.2.size⟩ now
          indexedPaths := setAdd acc.2.indexedPaths ent.2.fullPath }) := by
  unfold loadStep
  rw [if_pos hex, if_neg (fun hc => hc hh)]

theorem loadStep_skip {fs : Fs} {now : Nat} {acc : List Str × Indexer}
    {ent : Str × CacheEntry} (hex : ¬fsExists fs ent.2.fullPath = true) :
    loadStep fs now acc ent = acc := by
  unfold loadStep
  rw [if_neg hex]

theorem restoreFlag_some {fs : Fs} {ent : Str × CacheEntry}
    (hex : fsExists fs ent.2.fullPath = true)
    (hh : getFileHash fs ent.2.fullPath = ent.2.fileHash) :
    restoreFlag fs ent = some ent.2.fullPath := by
  unfold restoreFlag
  rw [if_pos hex, if_neg (fun hc => hc hh)]

theorem restoreFlag_none_mismatch {fs : Fs} {ent : Str × CacheEntry}
    (hh : getFileHash fs ent.2.fullPath ≠ ent.2.fileHash) :
    restoreFlag fs ent = none := by
  unfold restoreFlag
  by_cases hex : fsExists fs ent.2.fullPath = true
  · rw [if_pos hex, if_pos hh]
  · rw [if_neg hex]

theorem restoreFlag_none_missing {fs : Fs} {ent : Str × CacheEntry}
    (hex : ¬fsExists fs ent.2.fullPath = true) :
    restoreFlag fs ent = none := by
  unfold restoreFlag
  rw [if_neg hex]

theorem foldl_loadStep_indexedPaths (fs : Fs) (now : Nat)
    (ents : List (Str × CacheEntry)) (acc : List Str × Indexer) :
    (ents.foldl (loadStep fs now) acc).2.indexedPaths =
      (ents.filterMap (restoreFlag fs)).foldl setAdd
        acc.2.indexedPaths := by
  induction ents generalizing acc with
  | nil => simp
  | cons ent rest ih =>
    rw [List.foldl_cons, ih]
    by_cases hex : fsExists fs ent.2.fullPath = true
    · by_cases hh : getFileHash fs ent.2.fullPath ≠ ent.2.fileHash
      · rw [List.filterMap_cons_none (restoreFlag_none_mismatch hh),
          loadStep_reindex hex hh]
      · push_neg at hh
        rw [List.filterMap_cons_some (restoreFlag_some hex hh),
          loadStep_restore hex hh, List.foldl_cons]
    · rw [List.filterMap_cons_none (restoreFlag_none_missing hex),
        loadStep_skip hex]

theorem foldl_loadStep_fileInfo_ne (fs : Fs) (now : Nat)
    (ents : List (Str × CacheEntry)) (acc : List Str × Indexer) {q : Str}
    (hq : ∀ ent ∈ ents, ent.2.fullPath ≠ q) :
    alLookup (ents.foldl (loadStep fs now) acc).2.index.fileInfo q =
      alLookup acc.2.index.fileInfo q := by
  induction ents generalizing acc with
  | nil => rfl
  | cons ent rest ih =>
    rw [List.foldl_cons, ih _ (fun e he => hq e (by simp [he]))]
    unfold loadStep
    by_cases hex : fsExists fs ent.2.fullPath
    · by_cases hh : getFileHash fs ent.2.fullPath ≠ ent.2.fileHash
      · rw [if_pos hex, if_pos hh]
      · rw [if_pos hex, if_neg hh]
        exact addFile_fileInfo_ne _ _ _ _ _
          (fun hh' => hq ent (by simp) hh'.symm)
    · rw [if_neg hex]

theorem foldl_loadStep_fileInfo_mem (fs : Fs) (now : Nat)
    (ents : List (Str × CacheEntry)) (acc : List Str × Indexer)
    {ent : Str × CacheEntry} (hmem : ent ∈ ents)
    (hnd : (ents.map (fun e => e.2.fullPath)).Nodup)
    (hex : fsExists fs ent.2.fullPath)
    (hh : getFileHash fs ent.2.fullPath = ent.2.fileHash) :
    alLookup (ents.foldl (loadStep fs now) acc).2.index.fileInfo
        ent.2.fullPath = some (restoreEntry ent now) := by
  induction ents generalizing acc with
  | nil => exact absurd hmem (List.not_mem_nil ent)
  | cons ent₀ rest ih =>
    rcases List.mem_cons.mp hmem with rfl | hmem'
    · have hrest : ∀ e ∈ rest, e.2.fullPath ≠ ent.2.fullPath := by
        simp only [List.map_cons, List.nodup_cons, List.mem_map] at hnd
        intro e he hh'
        exact hnd.1 ⟨e, he, hh'⟩
      rw [List.foldl_cons, foldl_loadStep_fileInfo_ne fs now rest _ hrest]
      unfold loadStep
      rw [if_pos hex, if_neg (fun hcon => hcon hh)]
      exact addFile_fileInfo_self _ _ _ _ _
    · rw [List.foldl_cons]
      exact ih _ hmem' (List.nodup_cons.mp hnd).2

theorem walk_work_ok {fs : Fs} {dir : Str} {recursive : Bool}
    (H1 : (fs.map FsFile.path).Nodup)
    (H2 : ∀ f ∈ fs, walkCond dir recursive f = true → f.supported = true) :
    ∀ p ∈ walkFiles fs dir recursive,
      ∃ f, findFile fs p = some f ∧ f.supported = true := by
  intro p hp
  obtain ⟨f, hfs, hc, rfl⟩ := mem_walkFiles.mp hp
  exact ⟨f, findFile_of_mem H1 hfs, H2 f hfs hc⟩

/-- The `file_info` record the indexer holds for a path indexed straight
from disk at tick `now` (total version of `FsFile.entry` over a lookup). -/
def diskEntry (fs : Fs) (now : Nat) (p : Str) : FileEntry :=
  match findFile fs p with
  | some f => f.entry now
  | none => ⟨⟨[], 0⟩, now, [], []⟩

/-- The cache entry `save_index_to_cache` writes for a path whose
`file_info` record is `diskEntry fs now p`. -/
def diskCacheEntry (fs : Fs) (now : Nat) (p : Str) : CacheEntry :=
  { content := (diskEntry fs now p).fullContent
    title := basename p
    size := (diskEntry fs now p).meta.fileSizeMb
    modified := (diskEntry fs now p).indexedTime
    fileType := (diskEntry fs now p).meta.fileType
    fileHash := getFileHash fs p
    fullPath := p }

theorem save_files {fs : Fs} {st : Indexer} {dir : Str} {now : Nat}
    {g : Str → FileEntry}
    (hg : ∀ p ∈ st.indexedPaths, alLookup st.index.fileInfo p = some (g p)) :
    (saveIndexToCache fs st dir now).files =
      st.indexedPaths.map (fun p =>
        (relpath dir p,
          { content := (g p).fullContent
            title := basename p
            size := (g p).meta.fileSizeMb
            modified := (g p).indexedTime
            fileType := (g p).meta.fileType
            fileHash := getFileHash fs p
            fullPath := p : CacheEntry })) := by
  unfold saveIndexToCache
  exact filterMap_eq_map_of (fun p hp => by rw [hg p hp]; rfl)

theorem indexFiles_fresh_indexedPaths {fs : Fs} {dir : Str} {t1 : Nat}
    (H1 : (fs.map FsFile.path).Nodup)
    (H2 : ∀ f ∈ fs, walkCond dir true f = true → f.supported = true) :
    (indexFiles fs Indexer.empty t1 (walkFiles fs dir true)).1.indexedPaths =
      walkFiles fs dir true := by
  unfold indexFiles
  rw [foldl_indexStep_indexedPaths fs t1 _ _ (walk_work_ok H1 H2)]
  exact foldl_setAdd_of_fresh (nodup_walkFiles dir true H1)
    (by simp [Indexer.empty])

theorem indexFiles_fresh_fileInfo {fs : Fs} {dir : Str} {t1 : Nat} {p : Str}
    (H1 : (fs.map FsFile.path).Nodup)
    (H2 : ∀ f ∈ fs, walkCond dir true f = true → f.supported = true)
    (hp : p ∈ walkFiles fs dir true) :
    alLookup (indexFiles fs Indexer.empty t1
        (walkFiles fs dir true)).1.index.fileInfo p =
      some (diskEntry fs t1 p) := by
  obtain ⟨f, hf, hsup⟩ := walk_work_ok H1 H2 p hp
  unfold indexFiles
  rw [foldl_indexStep_fileInfo_mem fs t1 _ _ hp
    (nodup_walkFiles dir true H1) hf hsup]
  unfold diskEntry
  rw [hf]

theorem indexDirectory_fresh (fs : Fs) (dir : Str) (t1 : Nat)
    (st : Indexer)
    (hw : ∀ p ∈ walkFiles fs dir true,
      ∃ f, findFile fs p = some f ∧ f.supported = true)
    (hW : walkFiles fs dir true ≠ []) :
    indexDirectory fs none st dir true t1 =
      (some (saveIndexToCache fs
          (indexFiles fs st t1 (walkFiles fs dir true)).1 dir t1),
       (indexFiles fs st t1 (walkFiles fs dir true)).1,
       (indexFiles fs st t1 (walkFiles fs dir true)).2.1) := by
  have hlen : (walkFiles fs dir true).length ≠ 0 :=
    fun hc => hW (List.length_eq_zero.mp hc)
  have hcount : (indexFiles fs st t1 (walkFiles fs dir true)).2.2 =
      0 + (walkFiles fs dir true).length :=
    foldl_indexStep_count fs t1 _ _ hw
  have hpos : 0 < (indexFiles fs st t1 (walkFiles fs dir true)).2.2 := by
    rw [hcount]
    omega
  have hload : loadIndexFromCache fs none st dir true t1 =
      (false, [], [], st) := rfl
  unfold indexDirectory
  rw [hload]
  simp only [Bool.false_eq_true, if_false, Bool.or_false, decide_eq_true_eq]
  rw [if_neg hlen, if_pos hpos]

theorem reindexFlag_none_match {fs : Fs} {ent : Str × CacheEntry}
    (hh : getFileHash fs ent.2.fullPath = ent.2.fileHash) :
    reindexFlag fs ent = none := by
  unfold reindexFlag
  by_cases hex : fsExists fs ent.2.fullPath = true
  · rw [if_pos hex, if_neg (fun hc => hc hh)]
  · rw [if_neg hex]

theorem loadIndexFromCache_some {fs : Fs} {cd : CacheData} {st : Indexer}
    {dir : Str} {recursive : Bool} {now : Nat}
    (hv : cd.version = pyStr "1.0") :
    loadIndexFromCache fs (some cd) st dir recursive now =
      (true, (loadRestore fs cd st now).1,
        setDiff (scanCurrent fs dir recursive) (cachedSet cd dir recursive),
        evictDeleted
          (setDiff (cachedSet cd dir recursive) (scanCurrent fs dir recursive))
          (loadRestore fs cd st now).2) := by
  have hred : loadIndexFromCache fs (some cd) st dir recursive now =
      if cd.version ≠ pyStr "1.0" then (false, [], [], st)
      else
        (true, (loadRestore fs cd st now).1,
          setDiff (scanCurrent fs dir recursive) (cachedSet cd dir recursive),
          evictDeleted
            (setDiff (cachedSet cd dir recursive)
              (scanCurrent fs dir recursive))
            (loadRestore fs cd st now).2) := rfl
  rw [hred, if_neg (fun hne => hne hv)]

theorem indexDirectory_noop {fs : Fs} {cache : Option CacheData}
    {st st₂ : Indexer} {dir : Str} {recursive : Bool} {now : Nat}
    (h : loadIndexFromCache fs cache st dir recursive now =
      (true, [], [], st₂)) :
    indexDirectory fs cache st dir recursive now =
      (some (saveIndexToCache fs st₂ dir now), st₂, []) := by
  unfold indexDirectory
  rw [h]
  simp

theorem diskCacheEntry_time (fs : Fs) (t1 t2 : Nat) (p : Str) :
    diskCacheEntry fs t2 p =
      { diskCacheEntry fs t1 p with modified := t2 } := by
  unfold diskCacheEntry diskEntry FsFile.entry
  rcases findFile fs p with _ | f <;> rfl

/-- C4 (amended): re-running `index_directory` on the same unchanged
directory performs zero text extractions, but the rewritten cache is not
byte-identical to the first run's: its `files` map equals the first run's
except that every per-file `modified` timestamp (and the top-level
`last_indexed`) is the second run's clock value, because the restore path
stores `indexed_time = now()` and `save` writes it back as `modified`. -/
theorem indexDirectory_rerun_unchanged (fs : Fs) (dir : Str) (t1 t2 : Nat)
    (c1 : CacheData) (st1 : Indexer) (log1 : List Str)
    (H1 : (fs.map FsFile.path).Nodup)
    (H2 : ∀ f ∈ fs, walkCond dir true f = true → f.supported = true)
    (hW : walkFiles fs dir true ≠ [])
    (h1 : indexDirectory fs none Indexer.empty dir true t1 =
      (some c1, st1, log1)) :
    ∃ c2 st2,
      indexDirectory fs (some c1) st1 dir true t2 = (some c2, st2, []) ∧
      c2.files = c1.files.map (fun e => (e.1, { e.2 with modified := t2 })) ∧
      c1.lastIndexed = t1 ∧ c2.lastIndexed = t2 ∧
      c2.totalFiles = c1.totalFiles ∧ c2.version = c1.version := by
  have hfresh := indexDirectory_fresh fs dir t1 Indexer.empty
    (walk_work_ok H1 H2) hW
  rw [hfresh] at h1
  have hc1 : saveIndexToCache fs
      (indexFiles fs Indexer.empty t1 (walkFiles fs dir true)).1 dir t1 = c1 :=
    Option.some.inj (congrArg Prod.fst h1)
  have hst1 : (indexFiles fs Indexer.empty t1 (walkFiles fs dir true)).1 =
      st1 := congrArg (fun r => r.2.1) h1
  have hips : st1.indexedPaths = walkFiles fs dir true := by
    rw [← hst1]
    exact indexFiles_fresh_indexedPaths H1 H2
  have hfi1 : ∀ p ∈ walkFiles fs dir true,
      alLookup st1.index.fileInfo p = some (diskEntry fs t1 p) := by
    intro p hp
    rw [← hst1]
    exact indexFiles_fresh_fileInfo H1 H2 hp
  have hc1files : c1.files =
      (walkFiles fs dir true).map
        (fun p => (relpath dir p, diskCacheEntry fs t1 p)) := by
    rw [← hc1, hst1]
    rw [save_files (g := diskEntry fs t1)
      (fun p hp => hfi1 p (by rw [← hips]; exact hp))]
    rw [hips]
    rfl
  have hver : c1.version = pyStr "1.0" := by
    rw [← hc1]
    rfl
  have hlast1 : c1.lastIndexed = t1 := by
    rw [← hc1]
    rfl
  have htot1 : c1.totalFiles = (walkFiles fs dir true).length := by
    rw [← hc1, hst1]
    show st1.indexedPaths.length = _
    rw [hips]
  have hmapfp : c1.files.map (fun e => e.2.fullPath) = walkFiles fs dir true := by
    rw [hc1files, List.map_map]
    exact List.map_id _
  have hexists : ∀ ent ∈ c1.files, fsExists fs ent.2.fullPath = true ∧
      getFileHash fs ent.2.fullPath = ent.2.fileHash := by
    intro ent hent
    rw [hc1files] at hent
    obtain ⟨p, hpW, rfl⟩ := List.mem_map.mp hent
    obtain ⟨f, hf, _⟩ := walk_work_ok H1 H2 p hpW
    constructor
    · show fsExists fs p = true
      simp [fsExists, hf]
    · rfl
  have hreindex : (loadRestore fs c1 st1 t2).1 = [] := by
    unfold loadRestore
    rw [foldl_loadStep_fst]
    rw [List.filterMap_eq_nil_iff.mpr
      (fun ent hent => reindexFlag_none_match (hexists ent hent).2)]
    rfl
  have hpaths2 : (loadRestore fs c1 st1 t2).2.indexedPaths =
      st1.indexedPaths := by
    unfold loadRestore
    rw [foldl_loadStep_indexedPaths]
    rw [filterMap_eq_map_of (g := fun e => e.2.fullPath)
      (fun ent hent => restoreFlag_some (hexists ent hent).1
        (hexists ent hent).2)]
    rw [hmapfp]
    exact foldl_setAdd_of_subset (by rw [hips]; exact fun x hx => hx)
  have hnd : (c1.files.map (fun e => e.2.fullPath)).Nodup := by
    rw [hmapfp]
    exact nodup_walkFiles dir true H1
  have hfi2 : ∀ p ∈ walkFiles fs dir true,
      alLookup (loadRestore fs c1 st1 t2).2.index.fileInfo p =
        some (diskEntry fs t2 p) := by
    intro p hpW
    have hent : (relpath dir p, diskCacheEntry fs t1 p) ∈ c1.files := by
      rw [hc1files]
      exact List.mem_map_of_mem _ hpW
    obtain ⟨f, hf, _⟩ := walk_work_ok H1 H2 p hpW
    have hmm := foldl_loadStep_fileInfo_mem fs t2 c1.files ([], st1) hent hnd
      (hexists _ hent).1 (hexists _ hent).2
    have hre : restoreEntry (relpath dir p, diskCacheEntry fs t1 p) t2 =
        diskEntry fs t2 p := by
      simp [restoreEntry, diskCacheEntry, diskEntry, FsFile.entry, hf]
    unfold loadRestore
    rw [show ((relpath dir p, diskCacheEntry fs t1 p) : Str × CacheEntry).2.fullPath
        = p from rfl] at hmm
    rw [hmm, hre]
  have hscan : scanCurrent fs dir true = walkFiles fs dir true := by
    unfold scanCurrent
    exact foldl_setAdd_of_fresh (nodup_walkFiles dir true H1) (by simp)
  have hcached : cachedSet c1 dir true = walkFiles fs dir true := by
    unfold cachedSet
    rw [show c1.files.filter
        (fun ent => true || dirname ent.2.fullPath = dir) = c1.files from by
      simp]
    rw [← List.foldl_map (fun e => (e : Str × CacheEntry).2.fullPath) setAdd]
    rw [hmapfp]
    exact foldl_setAdd_of_fresh (nodup_walkFiles dir true H1) (by simp)
  have hload : loadIndexFromCache fs (some c1) st1 dir true t2 =
      (true, [], [], (loadRestore fs c1 st1 t2).2) := by
    rw [loadIndexFromCache_some hver, hreindex, hscan, hcached,
      setDiff_self]
    rfl
  refine ⟨saveIndexToCache fs (loadRestore fs c1 st1 t2).2 dir t2,
    (loadRestore fs c1 st1 t2).2, indexDirectory_noop hload, ?_, hlast1,
    rfl, ?_, ?_⟩
  · rw [save_files (g := diskEntry fs t2)
      (fun p hp => hfi2 p (by rw [← hips, ← hpaths2]; exact hp))]
    rw [hpaths2, hips, hc1files, List.map_map]
    refine List.map_congr_left (fun p _ => ?_)
    show (relpath dir p, diskCacheEntry fs t2 p) = _
    rw [diskCacheEntry_time fs t1 t2 p]
    rfl
  · show (loadRestore fs c1 st1 t2).2.indexedPaths.length = c1.totalFiles
    rw [hpaths2, hips, htot1]
  · rw [hver]
    rfl

/-- Consequences of a first (cache-less) indexing run for the state and the
written cache. -/
theorem indexDirectory_fresh_facts (fs : Fs) (dir : Str) (t1 : Nat)
    (c1 : CacheData) (st1 : Indexer) (log1 : List Str)
    (H1 : (fs.map FsFile.path).Nodup)
    (H2 : ∀ f ∈ fs, walkCond dir true f = true → f.supported = true)
    (hW : walkFiles fs dir true ≠ [])
    (h1 : indexDirectory fs none Indexer.empty dir true t1 =
      (some c1, st1, log1)) :
    st1.indexedPaths = walkFiles fs dir true ∧
    (∀ p ∈ walkFiles fs dir true,
      alLookup st1.index.fileInfo p = some (diskEntry fs t1 p)) ∧
    c1.files = (walkFiles fs dir true).map
      (fun p => (relpath dir p, diskCacheEntry fs t1 p)) ∧
    c1.version = pyStr "1.0" := by
  have hfresh := indexDirectory_fresh fs dir t1 Indexer.empty
    (walk_work_ok H1 H2) hW
  rw [hfresh] at h1
  have hc1 : saveIndexToCache fs
      (indexFiles fs Indexer.empty t1 (walkFiles fs dir true)).1 dir t1 = c1 :=
    Option.some.inj (congrArg Prod.fst h1)
  have hst1 : (indexFiles fs Indexer.empty t1 (walkFiles fs dir true)).1 =
      st1 := congrArg (fun r => r.2.1) h1
  have hips : st1.indexedPaths = walkFiles fs dir true := by
    rw [← hst1]
    exact indexFiles_fresh_indexedPaths H1 H2
  have hfi1 : ∀ p ∈ walkFiles fs dir true,
      alLookup st1.index.fileInfo p = some (diskEntry fs t1 p) := by
    intro p hp
    rw [← hst1]
    exact indexFiles_fresh_fileInfo H1 H2 hp
  refine ⟨hips, hfi1, ?_, ?_⟩
  · rw [← hc1, hst1]
    rw [save_files (g := diskEntry fs t1)
      (fun p hp => hfi1 p (by rw [← hips]; exact hp))]
    rw [hips]
    rfl
  · rw [← hc1]
    rfl

theorem findFile_filter_ne {fs : Fs} {p d : Str} (hne : p ≠ d) :
    findFile (fs.filter (fun f => f.path ≠ d)) p = findFile fs p := by
  induction fs with
  | nil => rfl
  | cons g rest ih =>
    by_cases hgd : g.path = d
    · have hgp : ¬(g.path = p) := fun hh => hne (hh ▸ hgd : p = d)
      rw [show (g :: rest).filter (fun f => f.path ≠ d) =
          rest.filter (fun f => f.path ≠ d) from by simp [List.filter_cons, hgd]]
      rw [ih]
      unfold findFile
      rw [List.find?_cons]
      simp [hgp]
    · rw [show (g :: rest).filter (fun f => f.path ≠ d) =
          g :: rest.filter (fun f => f.path ≠ d) from by
        simp [List.filter_cons, hgd]]
      unfold findFile
      rw [List.find?_cons, List.find?_cons]
      by_cases hgp : g.path = p
      · simp [hgp]
      · simp only [hgp, decide_False]
        exact ih

theorem findFile_filter_self {fs : Fs} {d : Str} :
    findFile (fs.filter (fun f => f.path ≠ d)) d = none := by
  unfold findFile
  rw [List.find?_eq_none]
  intro f hf
  have := (List.mem_filter.mp hf).2
  simp only [ne_eq, decide_not, Bool.not_eq_true', decide_eq_false_iff_not]
    at this
  simp [this]

theorem walkFiles_filter (fs : Fs) (dir : Str) (recursive : Bool) (d : Str) :
    walkFiles (fs.filter (fun f => f.path ≠ d)) dir recursive =
      (walkFiles fs dir recursive).filter (fun p => p ≠ d) := by
  unfold walkFiles
  rw [List.filter_filter, List.filter_map, List.filter_filter]
  congr 1
  apply List.filter_congr
  intro a _
  exact Bool.and_comm _ _

theorem restoreFlag_eq_some {fs : Fs} {ent : Str × CacheEntry} {x : Str}
    (h : restoreFlag fs ent = some x) : x = ent.2.fullPath := by
  unfold restoreFlag at h
  by_cases hex : fsExists fs ent.2.fullPath = true
  · rw [if_pos hex] at h
    by_cases hh : getFileHash fs ent.2.fullPath ≠ ent.2.fileHash
    · rw [if_pos hh] at h
      exact absurd h (by simp)
    · rw [if_neg hh] at h
      exact (Option.some.inj h).symm
  · rw [if_neg hex] at h
    exact absurd h (by simp)

theorem filter_eq_singleton {l : List Str} {d : Str} (hn : l.Nodup)
    (hd : d ∈ l) : l.filter (fun x => x = d) = [d] := by
  induction l with
  | nil => exact absurd hd (List.not_mem_nil d)
  | cons x xs ih =>
    rcases List.mem_cons.mp hd with rfl | hd'
    · rw [List.filter_cons, if_pos (by simp)]
      rw [show xs.filter (fun x => x = d) = [] from ?_]
      · rw [List.filter_eq_nil_iff]
        intro y hy
        simp only [decide_eq_true_eq]
        intro hh
        exact (List.nodup_cons.mp hn).1 (hh ▸ hy)
    · have hxd : ¬(x = d) := fun hh => (List.nodup_cons.mp hn).1 (hh ▸ hd')
      rw [List.filter_cons, if_neg (by simpa using hxd)]
      exact ih (List.nodup_cons.mp hn).2 hd'

theorem mem_candAll_source {st : SearchIndex} {qts : List Str}
    {maxResults : Nat} {p : Str} (h : p ∈ st.candAll qts maxResults) :
    ∃ e ∈ st.index, p ∈ e.2 := by
  rw [candAll_eq] at h
  have hor : p ∈ orListOf (st.tokenResults qts) → ∃ e ∈ st.index, p ∈ e.2 := by
    intro hp
    obtain ⟨cs, hcs, hpcs⟩ := mem_orListOf.mp hp
    obtain ⟨t, _, rfl⟩ := List.mem_map.mp hcs
    exact mem_candidates_source hpcs
  have hand : p ∈ andListOf (st.tokenResults qts) →
      ∃ e ∈ st.index, p ∈ e.2 := by
    intro hp
    rcases hq : qts with _ | ⟨t, ts⟩
    · rw [hq] at hp
      exact absurd hp (by simp [SearchIndex.tokenResults, andListOf])
    · rw [hq] at hp
      have := mem_andListOf hp (st.candidates t)
        (by simp [SearchIndex.tokenResults])
      exact mem_candidates_source this
  split at h
  · rcases List.mem_append.mp h with hp | hp
    · exact hand hp
    · exact hor (mem_setDiff.mp hp).1
  · exact hand h

theorem reindexFlag_none_missing {fs : Fs} {ent : Str × CacheEntry}
    (hex : ¬fsExists fs ent.2.fullPath = true) :
    reindexFlag fs ent = none := by
  unfold reindexFlag
  rw [if_neg hex]

theorem getFileHash_filter_ne {fs : Fs} {p d : Str} (hne : p ≠ d) :
    getFileHash (fs.filter (fun f => f.path ≠ d)) p = getFileHash fs p := by
  unfold getFileHash
  rw [findFile_filter_ne hne]

/-- C5: after a first full indexing run, removing one indexed file from
the filesystem and re-running `index_directory` leaves the file absent from
the per-file metadata map, from every postings set, from the rewritten
cache, and from the results of every subsequent `SearchIndex.search`.  The
second run performs no text extraction. -/
theorem indexDirectory_delete_file (fs : Fs) (dir : Str) (t1 t2 : Nat)
    (d : Str) (c1 : CacheData) (st1 : Indexer) (log1 : List Str)
    (H1 : (fs.map FsFile.path).Nodup)
    (H2 : ∀ f ∈ fs, walkCond dir true f = true → f.supported = true)
    (hW : walkFiles fs dir true ≠ [])
    (hd : d ∈ walkFiles fs dir true)
    (h1 : indexDirectory fs none Indexer.empty dir true t1 =
      (some c1, st1, log1)) :
    ∃ c2 st2,
      indexDirectory (fs.filter (fun f => f.path ≠ d)) (some c1) st1 dir
        true t2 = (some c2, st2, []) ∧
      alLookup st2.index.fileInfo d = none ∧
      (∀ e ∈ st2.index.index, d ∉ e.2) ∧
      (∀ ent ∈ c2.files, ent.2.fullPath ≠ d) ∧
      (∀ (q : Str) (m : Nat) (r : Result),
        r ∈ st2.index.search q m → r.filePath ≠ d) := by
  obtain ⟨hips, hfi1, hc1files, hver⟩ :=
    indexDirectory_fresh_facts fs dir t1 c1 st1 log1 H1 H2 hW h1
  have hmapfp : c1.files.map (fun e => e.2.fullPath) =
      walkFiles fs dir true := by
    rw [hc1files, List.map_map]
    exact List.map_id _
  have hW2 : walkFiles (fs.filter (fun f => f.path ≠ d)) dir true =
      (walkFiles fs dir true).filter (fun p => p ≠ d) :=
    walkFiles_filter fs dir true d
  have hWnd : (walkFiles fs dir true).Nodup := nodup_walkFiles dir true H1
  have hW2nd : ((walkFiles fs dir true).filter (fun p => p ≠ d)).Nodup :=
    hWnd.filter _
  have hfind2 : ∀ p ∈ walkFiles fs dir true, p ≠ d →
      ∃ f, findFile (fs.filter (fun f => f.path ≠ d)) p = some f ∧
        findFile fs p = some f := by
    intro p hp hne
    obtain ⟨f, hf, _⟩ := walk_work_ok H1 H2 p hp
    exact ⟨f, by rw [findFile_filter_ne hne]; exact hf, hf⟩
  have hexists2 : ∀ ent ∈ c1.files, ent.2.fullPath ≠ d →
      fsExists (fs.filter (fun f => f.path ≠ d)) ent.2.fullPath = true ∧
      getFileHash (fs.filter (fun f => f.path ≠ d)) ent.2.fullPath =
        ent.2.fileHash := by
    intro ent hent hne
    rw [hc1files] at hent
    obtain ⟨p, hpW, rfl⟩ := List.mem_map.mp hent
    obtain ⟨f, hf2, _⟩ := hfind2 p hpW hne
    constructor
    · show fsExists (fs.filter (fun f => f.path ≠ d)) p = true
      unfold fsExists
      rw [hf2]
      rfl
    · show getFileHash (fs.filter (fun f => f.path ≠ d)) p =
        getFileHash fs p
      exact getFileHash_filter_ne hne
  have hentd : ∀ ent ∈ c1.files, ent.2.fullPath = d →
      ¬fsExists (fs.filter (fun f => f.path ≠ d)) ent.2.fullPath = true := by
    intro ent _ hed
    rw [hed]
    show ¬fsExists (fs.filter (fun f => f.path ≠ d)) d = true
    unfold fsExists
    rw [findFile_filter_self]
    simp
  have hreindex :
      (loadRestore (fs.filter (fun f => f.path ≠ d)) c1 st1 t2).1 = [] := by
    unfold loadRestore
    rw [foldl_loadStep_fst]
    rw [List.filterMap_eq_nil_iff.mpr (fun ent hent => ?_)]
    · rfl
    · by_cases hne : ent.2.fullPath = d
      · exact reindexFlag_none_missing (hentd ent hent hne)
      · exact reindexFlag_none_match (hexists2 ent hent hne).2
  have hpaths2 :
      (loadRestore (fs.filter (fun f => f.path ≠ d)) c1 st1 t2).2.indexedPaths
        = st1.indexedPaths := by
    unfold loadRestore
    rw [foldl_loadStep_indexedPaths]
    refine foldl_setAdd_of_subset (fun x hx => ?_)
    obtain ⟨ent, hent, hflag⟩ := List.mem_filterMap.mp hx
    rw [restoreFlag_eq_some hflag, hips]
    rw [← hmapfp]
    exact List.mem_map_of_mem _ hent
  have hnd : (c1.files.map (fun e => e.2.fullPath)).Nodup := by
    rw [hmapfp]
    exact hWnd
  have hfi2 : ∀ p ∈ walkFiles fs dir true, p ≠ d →
      alLookup (loadRestore (fs.filter (fun f => f.path ≠ d)) c1 st1
          t2).2.index.fileInfo p =
        some (diskEntry (fs.filter (fun f => f.path ≠ d)) t2 p) := by
    intro p hpW hne
    have hent : (relpath dir p, diskCacheEntry fs t1 p) ∈ c1.files := by
      rw [hc1files]
      exact List.mem_map_of_mem _ hpW
    obtain ⟨f, hf2, hf⟩ := hfind2 p hpW hne
    have hx := hexists2 _ hent hne
    have hmm := foldl_loadStep_fileInfo_mem (fs.filter (fun f => f.path ≠ d))
      t2 c1.files ([], st1) hent hnd hx.1 hx.2
    have hre : restoreEntry (relpath dir p, diskCacheEntry fs t1 p) t2 =
        diskEntry (fs.filter (fun f => f.path ≠ d)) t2 p := by
      simp only [restoreEntry, diskCacheEntry, diskEntry, FsFile.entry,
        hf, hf2]
    unfold loadRestore
    rw [show ((relpath dir p, diskCacheEntry fs t1 p) :
        Str × CacheEntry).2.fullPath = p from rfl] at hmm
    rw [hmm, hre]
  have hscan2 : scanCurrent (fs.filter (fun f => f.path ≠ d)) dir true =
      (walkFiles fs dir true).filter (fun p => p ≠ d) := by
    unfold scanCurrent
    rw [hW2]
    exact foldl_setAdd_of_fresh hW2nd (by simp)
  have hcached2 : cachedSet c1 dir true = walkFiles fs dir true := by
    unfold cachedSet
    rw [show c1.files.filter
        (fun ent => true || dirname ent.2.fullPath = dir) = c1.files from by
      simp]
    rw [← List.foldl_map (fun e => (e : Str × CacheEntry).2.fullPath) setAdd]
    rw [hmapfp]
    exact foldl_setAdd_of_fresh hWnd (by simp)
  have hnew : setDiff ((walkFiles fs dir true).filter (fun p => p ≠ d))
      (walkFiles fs dir true) = [] := by
    unfold setDiff
    rw [List.filter_eq_nil_iff]
    intro x hx
    simp only [decide_eq_true_eq]
    exact fun hcon => hcon ((List.mem_filter.mp hx).1)
  have hdel : setDiff (walkFiles fs dir true)
      ((walkFiles fs dir true).filter (fun p => p ≠ d)) = [d] := by
    unfold setDiff
    rw [List.filter_congr (q := fun x => x = d) (fun x hx => ?_)]
    · exact filter_eq_singleton hWnd hd
    · rw [decide_eq_decide]
      constructor
      · intro hnot
        by_contra hne
        exact hnot (List.mem_filter.mpr ⟨hx, by simpa using hne⟩)
      · intro heq hmem
        have := (List.mem_filter.mp hmem).2
        simp only [ne_eq, decide_not, Bool.not_eq_true',
          decide_eq_false_iff_not] at this
        exact this heq
  have hdmem :
      d ∈ (loadRestore (fs.filter (fun f => f.path ≠ d)) c1 st1
        t2).2.indexedPaths := by
    rw [hpaths2, hips]
    exact hd
  have hev : evictDeleted [d]
      (loadRestore (fs.filter (fun f => f.path ≠ d)) c1 st1 t2).2 =
      (loadRestore (fs.filter (fun f => f.path ≠ d)) c1 st1
        t2).2.removeFromIndex d := by
    unfold evictDeleted
    rw [List.foldl_cons, if_pos hdmem]
    rfl
  have hload : loadIndexFromCache (fs.filter (fun f => f.path ≠ d))
      (some c1) st1 dir true t2 =
      (true, [], [],
        (loadRestore (fs.filter (fun f => f.path ≠ d)) c1 st1
          t2).2.removeFromIndex d) := by
    rw [loadIndexFromCache_some hver, hreindex, hscan2, hcached2, hnew,
      hdel, hev]
  have hg2 : ∀ p ∈ ((loadRestore (fs.filter (fun f => f.path ≠ d)) c1 st1
      t2).2.removeFromIndex d).indexedPaths,
      alLookup ((loadRestore (fs.filter (fun f => f.path ≠ d)) c1 st1
        t2).2.removeFromIndex d).index.fileInfo p =
        some (diskEntry (fs.filter (fun f => f.path ≠ d)) t2 p) := by
    intro p hp
    have hp2 : p ∈ (loadRestore (fs.filter (fun f => f.path ≠ d)) c1 st1
        t2).2.indexedPaths.filter (fun q => q ≠ d) := hp
    rw [hpaths2] at hp2
    have hpne : p ≠ d := by simpa using (List.mem_filter.mp hp2).2
    have hpW : p ∈ walkFiles fs dir true := by
      rw [← hips]
      exact (List.mem_filter.mp hp2).1
    show alLookup ((loadRestore (fs.filter (fun f => f.path ≠ d)) c1 st1
        t2).2.index.removeFile d).fileInfo p = _
    rw [removeFile_fileInfo_ne _ d hpne]
    exact hfi2 p hpW hpne
  refine ⟨_, _, indexDirectory_noop hload, ?_, ?_, ?_, ?_⟩
  · exact removeFile_fileInfo_self _ d
  · exact not_mem_removeIdx _ d
  · intro ent hent
    rw [save_files hg2] at hent
    obtain ⟨p, hp, rfl⟩ := List.mem_map.mp hent
    show p ≠ d
    have hp2 : p ∈ (loadRestore (fs.filter (fun f => f.path ≠ d)) c1 st1
        t2).2.indexedPaths.filter (fun q => q ≠ d) := hp
    simpa using (List.mem_filter.mp hp2).2
  · intro q m r hr
    obtain ⟨p, hp, e, _, hrp, _⟩ := mem_search hr
    obtain ⟨e₀, he₀, hpe₀⟩ :=
      mem_candAll_source (List.mem_of_mem_take hp)
    intro hrd
    rw [hrd] at hrp
    exact not_mem_removeIdx _ d e₀ he₀ (hrp ▸ hpe₀)

theorem removeIdx_eq_self {ix : List (Str × List Str)} {p : Str}
    (h : ∀ e ∈ ix, p ∉ e.2) : removeIdx ix p = ix := by
  unfold removeIdx
  rw [filterMap_eq_map_of (g := id) (fun e he => by
    rw [if_neg (h e he)]
    rfl)]
  exact List.map_id ix

theorem removeIdx_postingsAdd (ix : List (Str × List Str)) (t p : Str)
    (hne : ∀ e ∈ ix, e.2 ≠ []) :
    removeIdx (postingsAdd ix t p) p = removeIdx ix p := by
  induction ix with
  | nil =>
    show removeIdx [(t, [p])] p = removeIdx [] p
    unfold removeIdx
    simp [List.filterMap_cons]
  | cons e₀ rest ih =>
    obtain ⟨k, l⟩ := e₀
    by_cases hk : k = t
    · subst hk
      have hstep : postingsAdd ((k, l) :: rest) k p =
          (k, setAdd l p) :: rest := by
        unfold postingsAdd
        rw [if_pos rfl]
      rw [hstep]
      unfold removeIdx
      rw [List.filterMap_cons, List.filterMap_cons]
      have hps : p ∈ setAdd l p := mem_setAdd.mpr (Or.inr rfl)
      rw [if_pos hps]
      have hfil : (setAdd l p).filter (fun q => q ≠ p) =
          l.filter (fun q => q ≠ p) := by
        unfold setAdd
        split
        · rfl
        · rw [List.filter_append]
          simp
      rw [hfil]
      by_cases hpl : p ∈ l
      · rw [if_pos hpl]
      · rw [if_neg hpl]
        have hlf : l.filter (fun q => q ≠ p) = l :=
          List.filter_eq_self.mpr (fun q hq => by
            simp only [ne_eq, decide_not, Bool.not_eq_true',
              decide_eq_false_iff_not]
            exact fun hqp => hpl (hqp ▸ hq))
        rw [hlf]
        have hlne : ¬l.isEmpty := by
          simpa [List.isEmpty_iff] using hne (k, l) (by simp)
        rw [if_neg hlne]
    · have hstep : postingsAdd ((k, l) :: rest) t p =
          (k, l) :: postingsAdd rest t p := by
        conv_lhs => rw [postingsAdd]
        rw [if_neg hk]
      rw [hstep]
      unfold removeIdx
      rw [List.filterMap_cons, List.filterMap_cons]
      have ihr := ih (fun e he => hne e (by simp [he]))
      unfold removeIdx at ihr
      rw [ihr]

theorem removeIdx_foldl_postingsAdd (toks : List Str)
    (ix : List (Str × List Str)) (p : Str) (hne : ∀ e ∈ ix, e.2 ≠ []) :
    removeIdx (toks.foldl (fun a tk => postingsAdd a tk p) ix) p =
      removeIdx ix p := by
  induction toks generalizing ix with
  | nil => rfl
  | cons t ts ih =>
    rw [List.foldl_cons, ih _ (postingsAdd_nonempty ix t p hne),
      removeIdx_postingsAdd ix t p hne]

theorem alInsert_of_not_mem {α : Type} {l : List (Str × α)} {k : Str} {v : α}
    (h : k ∉ l.map Prod.fst) : alInsert l k v = l ++ [(k, v)] := by
  induction l with
  | nil => rfl
  | cons e rest ih =>
    simp only [List.map_cons, List.mem_cons] at h
    push_neg at h
    have hek : ¬(e.1 = k) := fun hh => h.1 hh.symm
    show alInsert (e :: rest) k v = e :: (rest ++ [(k, v)])
    unfold alInsert
    rw [if_neg hek, ih h.2]

theorem alErase_alInsert_of_not_mem {α : Type} {l : List (Str × α)} {k : Str}
    {v : α} (h : k ∉ l.map Prod.fst) :
    alErase (alInsert l k v) k = l := by
  rw [alInsert_of_not_mem h]
  unfold alErase
  rw [List.filter_append]
  have h1 : l.filter (fun p => p.1 ≠ k) = l :=
    List.filter_eq_self.mpr (fun e he => by
      simp only [ne_eq, decide_not, Bool.not_eq_true',
        decide_eq_false_iff_not]
      exact fun hh => h (hh ▸ List.mem_map_of_mem Prod.fst he))
  rw [h1]
  simp

theorem alLookup_ne_none_of_mem {α : Type} {l : List (Str × α)} {k : Str}
    (h : k ∈ l.map Prod.fst) : alLookup l k ≠ none := by
  induction l with
  | nil => exact absurd h (by simp)
  | cons e rest ih =>
    simp only [List.map_cons, List.mem_cons] at h
    unfold alLookup
    obtain ⟨k0, v0⟩ := e
    rcases h with rfl | h'
    · rw [if_pos rfl]
      simp
    · by_cases hk : k0 = k
      · rw [if_pos hk]
        simp
      · rw [if_neg hk]
        exact ih h'

/-- C6 (amended): `add_file` followed immediately by `remove_file` of the
same path restores the exact prior state PROVIDED the path was not already
present (no metadata record, no posting, and no token mapped to an empty
postings set — the last always holds for reachable states).  For an
already-present path the round trip erases the file instead of restoring
its previous entry. -/
theorem addFile_removeFile_cancel (st : SearchIndex) (p c : Str) (m : Meta)
    (n : Nat) (hfi : alLookup st.fileInfo p = none)
    (hpost : ∀ e ∈ st.index, p ∉ e.2)
    (hne : ∀ e ∈ st.index, e.2 ≠ []) :
    (st.addFile p c m n).removeFile p = st := by
  have hkeys : p ∉ st.fileInfo.map Prod.fst :=
    fun hmem => alLookup_ne_none_of_mem hmem hfi
  have hrm : st.removeFile p = st := by
    show SearchIndex.mk (removeIdx st.index p) (alErase st.fileInfo p) = st
    rw [removeIdx_eq_self hpost, alErase_of_not_mem hkeys]
  show SearchIndex.mk
      (removeIdx ((fileTokens p c).dedup.foldl
        (fun a tk => postingsAdd a tk p) (st.removeFile p).index) p)
      (alErase (alInsert (st.removeFile p).fileInfo p ⟨m, n, c.take 200, c⟩) p)
      = st
  rw [hrm]
  rw [removeIdx_foldl_postingsAdd _ _ _ hne, removeIdx_eq_self hpost,
    alErase_alInsert_of_not_mem hkeys]

/-- The relevance formula as the specification words it: `+2.0` once if any
query token is a substring of the filename, plus `1/frequency` for each
query token matched in that file's content (path present in the token's
postings), `frequency` being the number of files containing the token.
Stated for comparison with the source's `_calculate_relevance`. -/
def specRelevance (st : SearchIndex) (path : Str) (qts : List Str) : ℚ :=
  (if qts.any (fun t => strContains t ((basename path).map pyLower)) then 2
   else 0) +
  (qts.map (fun t =>
    match alLookup st.index t with
    | some l => if path ∈ l then 1 / (l.length : ℚ) else 0
    | none => 0)).sum

/-- Shared example metadata. -/
def exMeta : Meta := ⟨pyStr "text", 1⟩

/-- Example index: `doc1.txt` contains both query tokens, `apple.txt` only
one (but carries it in its filename). -/
def exDoc : SearchIndex :=
  (SearchIndex.empty.addFile (pyStr "/d/doc1.txt") (pyStr "apple banana")
    exMeta 0).addFile (pyStr "/d/apple.txt") (pyStr "apple pie") exMeta 0

/-- Example index with two single-token files. -/
def exAB : SearchIndex :=
  (SearchIndex.empty.addFile (pyStr "/d/a.txt") (pyStr "apple")
    exMeta 0).addFile (pyStr "/d/b.txt") (pyStr "banana") exMeta 0

/-- Example index with a file whose name contains two query tokens. -/
def exPie : SearchIndex :=
  SearchIndex.empty.addFile (pyStr "/d/applepie.txt") (pyStr "apple pie")
    exMeta 0

/-- Example filesystem with two indexable text files. -/
def exFs : Fs :=
  [⟨pyStr "/d/a.txt", 5, 11, 1, pyStr "text", true, true,
     pyStr "apple banana"⟩,
   ⟨pyStr "/d/b.txt", 6, 12, 1, pyStr "text", true, true,
     pyStr "banana cherry"⟩]

/-- The first indexing run over `exFs` at tick 0. -/
def exRun1 : Option CacheData × Indexer × List Str :=
  indexDirectory exFs none Indexer.empty (pyStr "/d") true 0

/-- The cache written by the first run. -/
def exC1 : CacheData := exRun1.1.getD ⟨[], 0, 0, []⟩

/-- The indexer state after the first run. -/
def exSt1 : Indexer := exRun1.2.1

/-- The extraction log of the first run. -/
def exLog1 : List Str := exRun1.2.2

theorem reindexFlag_some {fs : Fs} {ent : Str × CacheEntry}
    (hex : fsExists fs ent.2.fullPath = true)
    (hh : getFileHash fs ent.2.fullPath ≠ ent.2.fileHash) :
    reindexFlag fs ent = some ent.2.fullPath := by
  unfold reindexFlag
  rw [if_pos hex, if_pos hh]

theorem reindexFlag_eq_some {fs : Fs} {ent : Str × CacheEntry} {x : Str}
    (h : reindexFlag fs ent = some x) :
    x = ent.2.fullPath ∧
      getFileHash fs ent.2.fullPath ≠ ent.2.fileHash := by
  unfold reindexFlag at h
  by_cases hex : fsExists fs ent.2.fullPath = true
  · rw [if_pos hex] at h
    by_cases hh : getFileHash fs ent.2.fullPath ≠ ent.2.fileHash
    · rw [if_pos hh] at h
      exact ⟨(Option.some.inj h).symm, hh⟩
    · rw [if_neg hh] at h
      exact absurd h (by simp)
  · rw [if_neg hex] at h
    exact absurd h (by simp)

theorem search_singleton_empty (st : SearchIndex) (q : Str)
    (maxResults : Nat) (h : q.length = 1) : st.search q maxResults = [] := by
  obtain ⟨c, rfl⟩ := List.length_eq_one.mp h
  exact search_of_no_tokens (tokenize_singleton c)

/-- One fold step of `_calculate_relevance` adds the per-token term. -/
theorem relevance_step (st : SearchIndex) (filename : Str) (score : ℚ)
    (t : Str) :
    (let s := if strContains t filename then score + 2 else score
     match alLookup st.index t with
     | some l => if 0 < l.length then s + 1 / (l.length : ℚ) else s
     | none => s) =
      score + ((if strContains t filename then (2 : ℚ) else 0) +
        match alLookup st.index t with
        | some l => if 0 < l.length then 1 / (l.length : ℚ) else 0
        | none => 0) := by
  rcases alLookup st.index t with _ | l
  · by_cases hc : strContains t filename = true
    · simp [hc]
    · simp [hc]
  · by_cases hc : strContains t filename = true <;>
      by_cases hl : 0 < l.length <;> (simp [hc, hl]; try ring)

theorem relevance_foldl (st : SearchIndex) (filename : Str) (qts : List Str)
    (acc : ℚ) :
    qts.foldl
      (fun score t =>
        let s := if strContains t filename then score + 2 else score
        match alLookup st.index t with
        | some l => if 0 < l.length then s + 1 / (l.length : ℚ) else s
        | none => s)
      acc =
      acc + (qts.map (fun t =>
        (if strContains t filename then (2 : ℚ) else 0) +
        match alLookup st.index t with
        | some l => if 0 < l.length then 1 / (l.length : ℚ) else 0
        | none => 0)).sum := by
  induction qts generalizing acc with
  | nil => simp
  | cons t ts ih =>
    rw [List.foldl_cons, ih]
    rw [show (let s := if strContains t filename then acc + 2 else acc
        match alLookup st.index t with
        | some l => if 0 < l.length then s + 1 / (l.length : ℚ) else s
        | none => s) = acc + _ from relevance_step st filename acc t]
    rw [List.map_cons, List.sum_cons]
    ring

/-- `_calculate_relevance` as a sum over the query tokens. -/
theorem calculateRelevance_eq_sum (st : SearchIndex) (p : Str)
    (qts : List Str) (h : (alLookup st.fileInfo p).isSome = true) :
    st.calculateRelevance p qts =
      (qts.map (fun t =>
        (if strContains t ((basename p).map pyLower) then (2 : ℚ) else 0) +
        match alLookup st.index t with
        | some l => if 0 < l.length then 1 / (l.length : ℚ) else 0
        | none => 0)).sum := by
  rcases he : alLookup st.fileInfo p with _ | e
  · rw [he] at h
    exact absurd h (by simp)
  · simp only [SearchIndex.calculateRelevance, he]
    rw [relevance_foldl]
    simp

theorem score_exDoc_doc1 :
    exDoc.calculateRelevance (pyStr "/d/doc1.txt")
      (tokenize (pyStr "apple banana")) = 3 / 2 := by
  rw [calculateRelevance_eq_sum _ _ _ (by decide)]
  rw [show tokenize (pyStr "apple banana") =
    [pyStr "apple", pyStr "banana"] from by decide]
  simp only [List.map_cons, List.map_nil, List.sum_cons, List.sum_nil]
  rw [show strContains (pyStr "apple")
    ((basename (pyStr "/d/doc1.txt")).map pyLower) = false from by decide]
  rw [show strContains (pyStr "banana")
    ((basename (pyStr "/d/doc1.txt")).map pyLower) = false from by decide]
  rw [show alLookup exDoc.index (pyStr "apple") =
    some [pyStr "/d/doc1.txt", pyStr "/d/apple.txt"] from by decide]
  rw [show alLookup exDoc.index (pyStr "banana") =
    some [pyStr "/d/doc1.txt"] from by decide]
  norm_num

theorem score_exDoc_apple :
    exDoc.calculateRelevance (pyStr "/d/apple.txt")
      (tokenize (pyStr "apple banana")) = 7 / 2 := by
  rw [calculateRelevance_eq_sum _ _ _ (by decide)]
  rw [show tokenize (pyStr "apple banana") =
    [pyStr "apple", pyStr "banana"] from by decide]
  simp only [List.map_cons, List.map_nil, List.sum_cons, List.sum_nil]
  rw [show strContains (pyStr "apple")
    ((basename (pyStr "/d/apple.txt")).map pyLower) = true from by decide]
  rw [show strContains (pyStr "banana")
    ((basename (pyStr "/d/apple.txt")).map pyLower) = false from by decide]
  rw [show alLookup exDoc.index (pyStr "apple") =
    some [pyStr "/d/doc1.txt", pyStr "/d/apple.txt"] from by decide]
  rw [show alLookup exDoc.index (pyStr "banana") =
    some [pyStr "/d/doc1.txt"] from by decide]
  norm_num

theorem score_exAB_a :
    exAB.calculateRelevance (pyStr "/d/a.txt")
      (tokenize (pyStr "apple banana")) = 2 := by
  rw [calculateRelevance_eq_sum _ _ _ (by decide)]
  rw [show tokenize (pyStr "apple banana") =
    [pyStr "apple", pyStr "banana"] from by decide]
  simp only [List.map_cons, List.map_nil, List.sum_cons, List.sum_nil]
  rw [show strContains (pyStr "apple")
    ((basename (pyStr "/d/a.txt")).map pyLower) = false from by decide]
  rw [show strContains (pyStr "banana")
    ((basename (pyStr "/d/a.txt")).map pyLower) = false from by decide]
  rw [show alLookup exAB.index (pyStr "apple") =
    some [pyStr "/d/a.txt"] from by decide]
  rw [show alLookup exAB.index (pyStr "banana") =
    some [pyStr "/d/b.txt"] from by decide]
  norm_num

theorem spec_score_exAB_a :
    specRelevance exAB (pyStr "/d/a.txt")
      (tokenize (pyStr "apple banana")) = 1 := by
  unfold specRelevance
  rw [show ((tokenize (pyStr "apple banana")).any (fun t =>
    strContains t ((basename (pyStr "/d/a.txt")).map pyLower))) = false from
    by decide]
  rw [show tokenize (pyStr "apple banana") =
    [pyStr "apple", pyStr "banana"] from by decide]
  simp only [List.map_cons, List.map_nil, List.sum_cons, List.sum_nil]
  rw [show alLookup exAB.index (pyStr "apple") =
    some [pyStr "/d/a.txt"] from by decide]
  rw [show alLookup exAB.index (pyStr "banana") =
    some [pyStr "/d/b.txt"] from by decide]
  dsimp only
  rw [if_pos (show pyStr "/d/a.txt" ∈ [pyStr "/d/a.txt"] by decide)]
  rw [if_neg (show ¬pyStr "/d/a.txt" ∈ [pyStr "/d/b.txt"] by decide)]
  norm_num

theorem score_exPie :
    exPie.calculateRelevance (pyStr "/d/applepie.txt")
      (tokenize (pyStr "apple pie")) = 6 := by
  rw [calculateRelevance_eq_sum _ _ _ (by decide)]
  rw [show tokenize (pyStr "apple pie") =
    [pyStr "apple", pyStr "pie"] from by decide]
  simp only [List.map_cons, List.map_nil, List.sum_cons, List.sum_nil]
  rw [show strContains (pyStr "apple")
    ((basename (pyStr "/d/applepie.txt")).map pyLower) = true from by decide]
  rw [show strContains (pyStr "pie")
    ((basename (pyStr "/d/applepie.txt")).map pyLower) = true from by decide]
  rw [show alLookup exPie.index (pyStr "apple") =
    some [pyStr "/d/applepie.txt"] from by decide]
  rw [show alLookup exPie.index (pyStr "pie") =
    some [pyStr "/d/applepie.txt"] from by decide]
  norm_num

theorem spec_score_exPie :
    specRelevance exPie (pyStr "/d/applepie.txt")
      (tokenize (pyStr "apple pie")) = 4 := by
  unfold specRelevance
  rw [show ((tokenize (pyStr "apple pie")).any (fun t =>
    strContains t ((basename (pyStr "/d/applepie.txt")).map pyLower))) = true
    from by decide]
  rw [show tokenize (pyStr "apple pie") =
    [pyStr "apple", pyStr "pie"] from by decide]
  simp only [List.map_cons, List.map_nil, List.sum_cons, List.sum_nil]
  rw [show alLookup exPie.index (pyStr "apple") =
    some [pyStr "/d/applepie.txt"] from by decide]
  rw [show alLookup exPie.index (pyStr "pie") =
    some [pyStr "/d/applepie.txt"] from by decide]
  dsimp only
  rw [if_pos (show pyStr "/d/applepie.txt" ∈ [pyStr "/d/applepie.txt"] by
    decide)]
  norm_num

/-- The result record `search` builds for `doc1.txt` under the two-token
query (score `3/2`: neither token in the filename, `1/2 + 1` from the
postings lengths). -/
def resDoc1 : Result :=
  { filePath := pyStr "/d/doc1.txt", filename := pyStr "doc1.txt",
    fileType := pyStr "text", fileSizeMb := 1, indexedTime := 0,
    relevanceScore := 3 / 2 }

/-- The result record `search` builds for `apple.txt` under the two-token
query (score `7/2`: `+2` for `apple` in the filename, `1/2 + 1` from the
postings lengths). -/
def resApple : Result :=
  { filePath := pyStr "/d/apple.txt", filename := pyStr "apple.txt",
    fileType := pyStr "text", fileSizeMb := 1, indexedTime := 0,
    relevanceScore := 7 / 2 }

theorem sortByScoreDesc_pair_swap (r1 r2 : Result)
    (h : ¬r2.relevanceScore ≤ r1.relevanceScore) :
    sortByScoreDesc [r1, r2] = [r2, r1] := by
  unfold sortByScoreDesc
  rw [List.foldl_cons, List.foldl_cons, List.foldl_nil]
  rw [show insertDesc r1 [] = [r1] from rfl]
  unfold insertDesc
  rw [if_neg h]

theorem mkResult_exDoc_doc1 :
    mkResult exDoc (tokenize (pyStr "apple banana")) (pyStr "/d/doc1.txt") =
      some resDoc1 := by
  unfold mkResult
  rw [show alLookup exDoc.fileInfo (pyStr "/d/doc1.txt") =
    some ⟨exMeta, 0, pyStr "apple banana", pyStr "apple banana"⟩ from
    by decide]
  rw [Option.map_some']
  dsimp only
  rw [score_exDoc_doc1]
  rfl

theorem mkResult_exDoc_apple :
    mkResult exDoc (tokenize (pyStr "apple banana")) (pyStr "/d/apple.txt") =
      some resApple := by
  unfold mkResult
  rw [show alLookup exDoc.fileInfo (pyStr "/d/apple.txt") =
    some ⟨exMeta, 0, pyStr "apple pie", pyStr "apple pie"⟩ from by decide]
  rw [Option.map_some']
  dsimp only
  rw [score_exDoc_apple]
  rfl

/-- Full evaluation of `search` on `exDoc`: the OR-relaxed `apple.txt`
(score `7/2`) is ranked above the sole AND match `doc1.txt` (score `3/2`). -/
theorem search_exDoc_eval :
    exDoc.search (pyStr "apple banana") 10 = [resApple, resDoc1] := by
  rw [search_eq_of_tokens (by decide)]
  rw [show (exDoc.candAll (tokenize (pyStr "apple banana")) 10).take 10 =
    [pyStr "/d/doc1.txt", pyStr "/d/apple.txt"] from by decide]
  rw [List.filterMap_cons_some mkResult_exDoc_doc1,
    List.filterMap_cons_some mkResult_exDoc_apple, List.filterMap_nil]
  exact sortByScoreDesc_pair_swap resDoc1 resApple
    (by norm_num [resDoc1, resApple])

/-- C1 (amended): for every query that tokenizes to at least one token and
whose AND intersection holds fewer than `max_results / 2` files, the
candidate list of `search` is the AND intersection followed by the OR union
of all per-token candidate sets minus the AND members, without duplicates;
every AND member belongs to every per-token candidate set; the returned
list has at most `max_results` entries and is sorted by relevance score,
descending.  (The original claim's ranking clause — every OR-relaxed
result placed below every AND match — is dropped: the final score sort can
rank an OR-relaxed file above an AND match.) -/
theorem search_and_or_relaxation (st : SearchIndex) (q : Str)
    (maxResults : Nat) (h : tokenize q ≠ [])
    (hrel : (andListOf (st.tokenResults (tokenize q))).length <
      maxResults / 2) :
    st.candAll (tokenize q) maxResults =
      andListOf (st.tokenResults (tokenize q)) ++
        setDiff (orListOf (st.tokenResults (tokenize q)))
          (andListOf (st.tokenResults (tokenize q))) ∧
    (st.candAll (tokenize q) maxResults).Nodup ∧
    (∀ p ∈ andListOf (st.tokenResults (tokenize q)),
      ∀ cs ∈ st.tokenResults (tokenize q), p ∈ cs) ∧
    (st.search q maxResults).length ≤ maxResults ∧
    (st.search q maxResults).Pairwise
      (fun a b => b.relevanceScore ≤ a.relevanceScore) := by
  refine ⟨by rw [candAll_eq, if_pos hrel], nodup_candAll st _ _,
    fun p hp => mem_andListOf hp, length_search_le st q maxResults, ?_⟩
  rw [search_eq_of_tokens h]
  exact sortByScoreDesc_sorted _

theorem search_and_or_relaxation_witness :
    (tokenize (pyStr "apple banana") ≠ [] ∧
      (andListOf
        (exDoc.tokenResults (tokenize (pyStr "apple banana")))).length <
        10 / 2) ∧
    exDoc.candAll (tokenize (pyStr "apple banana")) 10 =
      andListOf (exDoc.tokenResults (tokenize (pyStr "apple banana"))) ++
        setDiff
          (orListOf (exDoc.tokenResults (tokenize (pyStr "apple banana"))))
          (andListOf (exDoc.tokenResults (tokenize (pyStr "apple banana")))) :=
  ⟨⟨by decide, by decide⟩,
    (search_and_or_relaxation exDoc (pyStr "apple banana") 10 (by decide)
      (by decide)).1⟩

/-- C1 counterexample to the original ranking clause: in `exDoc` the
two-token query AND-matches only `doc1.txt`; `apple.txt` enters through the
OR relaxation, yet the returned list ranks it first. -/
theorem search_or_result_outranks_and :
    andListOf (exDoc.tokenResults (tokenize (pyStr "apple banana"))) =
      [pyStr "/d/doc1.txt"] ∧
    pyStr "/d/apple.txt" ∈
      setDiff
        (orListOf (exDoc.tokenResults (tokenize (pyStr "apple banana"))))
        (andListOf (exDoc.tokenResults (tokenize (pyStr "apple banana")))) ∧
    (exDoc.search (pyStr "apple banana") 10).map Result.filePath =
      [pyStr "/d/apple.txt", pyStr "/d/doc1.txt"] := by
  refine ⟨by decide, by decide, ?_⟩
  rw [search_exDoc_eval]
  rfl

/-- C2 (amended): for every file with a `file_info` record, the relevance
score is the sum over the query tokens of `+2.0` for EACH token that is a
substring of the lowercased filename (not `2.0` once for all of them), plus
`1/len(postings)` for each token present in the inverted index at all —
whether or not this file's content contains the token; the returned results
are sorted by this score descending, and each result carries the score of
its own path. -/
theorem relevance_score_formula (st : SearchIndex) (p : Str)
    (qts : List Str) (q : Str) (maxResults : Nat) (r : Result)
    (hp : (alLookup st.fileInfo p).isSome = true)
    (hr : r ∈ st.search q maxResults) :
    st.calculateRelevance p qts =
      (qts.map (fun t =>
        (if strContains t ((basename p).map pyLower) then (2 : ℚ) else 0) +
        match alLookup st.index t with
        | some l => if 0 < l.length then 1 / (l.length : ℚ) else 0
        | none => 0)).sum ∧
    r.relevanceScore = st.calculateRelevance r.filePath (tokenize q) ∧
    (st.search q maxResults).Pairwise
      (fun a b => b.relevanceScore ≤ a.relevanceScore) := by
  refine ⟨calculateRelevance_eq_sum st p qts hp, ?_, ?_⟩
  · obtain ⟨p', _, e, _, hrp, hscore⟩ := mem_search hr
    rw [hrp]
    exact hscore
  · by_cases htk : tokenize q = []
    · rw [search_of_no_tokens htk]
      exact List.Pairwise.nil
    · rw [search_eq_of_tokens htk]
      exact sortByScoreDesc_sorted _

theorem relevance_score_formula_witness :
    ((alLookup exDoc.fileInfo (pyStr "/d/doc1.txt")).isSome = true ∧
      resApple ∈ exDoc.search (pyStr "apple banana") 10) ∧
    resApple.relevanceScore =
      exDoc.calculateRelevance resApple.filePath
        (tokenize (pyStr "apple banana")) :=
  ⟨⟨by decide, by rw [search_exDoc_eval]; exact List.mem_cons_self _ _⟩,
    (relevance_score_formula exDoc (pyStr "/d/doc1.txt")
      (tokenize (pyStr "apple banana")) (pyStr "apple banana") 10 resApple
      (by decide)
      (by rw [search_exDoc_eval]; exact List.mem_cons_self _ _)).2.1⟩

/-- C2 counterexample to the claimed formula: on `exPie` the code scores
`applepie.txt` `6` (it adds `2.0` per filename-matching token) where the
claimed formula gives `4` (`2.0` once); on `exAB` the code scores `a.txt`
`2` for the query `apple banana` (it adds `1/frequency` for `banana`, a
token indexed only in the OTHER file) where the claimed formula gives `1`. -/
theorem relevance_diverges_from_spec :
    (exPie.calculateRelevance (pyStr "/d/applepie.txt")
        (tokenize (pyStr "apple pie")) = 6 ∧
      specRelevance exPie (pyStr "/d/applepie.txt")
        (tokenize (pyStr "apple pie")) = 4) ∧
    exAB.calculateRelevance (pyStr "/d/a.txt")
        (tokenize (pyStr "apple banana")) = 2 ∧
      specRelevance exAB (pyStr "/d/a.txt")
        (tokenize (pyStr "apple banana")) = 1 :=
  ⟨⟨score_exPie, spec_score_exPie⟩, score_exAB_a, spec_score_exAB_a⟩

/-- C3: for every cache entry whose `full_path` still exists on disk, the
restore loop of `load_index_from_cache` places the path in
`files_to_reindex` if and only if the freshly computed `(mtime, size, path)`
hash differs from the stored `file_hash`; on a hash match, the path's
restored `file_info` record is built verbatim from the cached entry
(`restoreEntry`: the cached `content` becomes `full_content` and its
200-character prefix the preview) — `loadStep` contains no extraction
call, so `extract_text` is never invoked for an unchanged file. -/
theorem load_reindex_iff_hash_mismatch (fs : Fs) (cd : CacheData)
    (st : Indexer) (dir : Str) (recursive : Bool) (now : Nat)
    (ent : Str × CacheEntry) (hmem : ent ∈ cd.files)
    (hnd : (cd.files.map (fun e => e.2.fullPath)).Nodup)
    (hver : cd.version = pyStr "1.0")
    (hex : fsExists fs ent.2.fullPath = true) :
    (ent.2.fullPath ∈
        (loadIndexFromCache fs (some cd) st dir recursive now).2.1 ↔
      getFileHash fs ent.2.fullPath ≠ ent.2.fileHash) ∧
    (getFileHash fs ent.2.fullPath = ent.2.fileHash →
      alLookup (loadRestore fs cd st now).2.index.fileInfo ent.2.fullPath =
        some (restoreEntry ent now)) := by
  constructor
  · rw [loadIndexFromCache_some hver]
    show ent.2.fullPath ∈ (loadRestore fs cd st now).1 ↔ _
    unfold loadRestore
    rw [foldl_loadStep_fst, List.nil_append]
    constructor
    · intro hmem'
      obtain ⟨ent', hent', hflag⟩ := List.mem_filterMap.mp hmem'
      obtain ⟨heq, hne⟩ := reindexFlag_eq_some hflag
      have hee : ent' = ent :=
        List.inj_on_of_nodup_map hnd hent' hmem heq.symm
      rw [hee] at hne
      exact hne
    · intro hh
      exact List.mem_filterMap.mpr ⟨ent, hmem, reindexFlag_some hex hh⟩
  · intro hh
    exact foldl_loadStep_fileInfo_mem fs now cd.files ([], st) hmem hnd hex hh

/-- A hand-written cache holding one entry for `/d/a.txt` whose stored hash
matches the live `exFs` stat. -/
def exEnt : Str × CacheEntry :=
  (pyStr "a.txt",
    ⟨pyStr "apple", pyStr "a.txt", 1, 0, pyStr "text",
      some (5, 11, pyStr "/d/a.txt"), pyStr "/d/a.txt"⟩)

def exCache : CacheData := ⟨[exEnt], 0, 1, pyStr "1.0"⟩

theorem load_reindex_iff_hash_mismatch_witness :
    (exEnt ∈ exCache.files ∧
      (exCache.files.map (fun e => e.2.fullPath)).Nodup ∧
      exCache.version = pyStr "1.0" ∧
      fsExists exFs exEnt.2.fullPath = true) ∧
    (exEnt.2.fullPath ∈
        (loadIndexFromCache exFs (some exCache) Indexer.empty (pyStr "/d")
          true 7).2.1 ↔
      getFileHash exFs exEnt.2.fullPath ≠ exEnt.2.fileHash) :=
  ⟨⟨by decide, by decide, by decide, by decide⟩,
    (load_reindex_iff_hash_mismatch exFs exCache Indexer.empty (pyStr "/d")
      true 7 exEnt (by decide) (by decide) (by decide) (by decide)).1⟩

/-- The second indexing run over the unchanged `exFs` at tick 1. -/
def exRun2 : Option CacheData × Indexer × List Str :=
  indexDirectory exFs (some exC1) exSt1 (pyStr "/d") true 1

/-- C4 counterexample to literal cache identity: the second run over the
unchanged directory extracts nothing, yet the cache it writes differs from
the first run's (`modified` / `last_indexed` carry the new clock value). -/
theorem rerun_cache_not_identical : exRun2.1 ≠ exRun1.1 ∧ exRun2.2.2 = [] :=
  ⟨by decide, by decide⟩

theorem indexDirectory_rerun_unchanged_witness :
    ((exFs.map FsFile.path).Nodup ∧
      walkFiles exFs (pyStr "/d") true ≠ [] ∧
      indexDirectory exFs none Indexer.empty (pyStr "/d") true 0 =
        (some exC1, exSt1, exLog1)) ∧
    ∃ c2 st2,
      indexDirectory exFs (some exC1) exSt1 (pyStr "/d") true 1 =
        (some c2, st2, []) ∧
      c2.files =
        exC1.files.map (fun e => (e.1, { e.2 with modified := 1 })) ∧
      exC1.lastIndexed = 0 ∧ c2.lastIndexed = 1 ∧
      c2.totalFiles = exC1.totalFiles ∧ c2.version = exC1.version :=
  ⟨⟨by decide, by decide, by decide⟩,
    indexDirectory_rerun_unchanged exFs (pyStr "/d") 0 1 exC1 exSt1 exLog1
      (by decide) (by decide) (by decide) (by decide)⟩

theorem indexDirectory_delete_file_witness :
    ((exFs.map FsFile.path).Nodup ∧
      walkFiles exFs (pyStr "/d") true ≠ [] ∧
      pyStr "/d/a.txt" ∈ walkFiles exFs (pyStr "/d") true ∧
      indexDirectory exFs none Indexer.empty (pyStr "/d") true 0 =
        (some exC1, exSt1, exLog1)) ∧
    ∃ c2 st2,
      indexDirectory (exFs.filter (fun f => f.path ≠ pyStr "/d/a.txt"))
        (some exC1) exSt1 (pyStr "/d") true 1 = (some c2, st2, []) ∧
      alLookup st2.index.fileInfo (pyStr "/d/a.txt") = none ∧
      (∀ e ∈ st2.index.index, pyStr "/d/a.txt" ∉ e.2) ∧
      (∀ ent ∈ c2.files, ent.2.fullPath ≠ pyStr "/d/a.txt") ∧
      (∀ (q : Str) (m : Nat) (r : Result),
        r ∈ st2.index.search q m → r.filePath ≠ pyStr "/d/a.txt") :=
  ⟨⟨by decide, by decide, by decide, by decide⟩,
    indexDirectory_delete_file exFs (pyStr "/d") 0 1 (pyStr "/d/a.txt")
      exC1 exSt1 exLog1 (by decide) (by decide) (by decide) (by decide)
      (by decide)⟩

/-- C6 counterexample to unconditional cancellation: adding a path that is
ALREADY indexed and then removing it erases the file instead of restoring
its previous entry. -/
theorem addFile_removeFile_not_cancel_on_reindex :
    (((SearchIndex.empty.addFile (pyStr "/d/a.txt") (pyStr "apple") exMeta
        0).addFile (pyStr "/d/a.txt") (pyStr "banana") exMeta
        1).removeFile (pyStr "/d/a.txt") =
      SearchIndex.empty.addFile (pyStr "/d/a.txt") (pyStr "apple") exMeta
        0) = False :=
  eq_false (by decide)

theorem addFile_removeFile_cancel_witness :
    (alLookup exAB.fileInfo (pyStr "/d/c.txt") = none ∧
      (∀ e ∈ exAB.index, pyStr "/d/c.txt" ∉ e.2) ∧
      (∀ e ∈ exAB.index, e.2 ≠ [])) ∧
    (exAB.addFile (pyStr "/d/c.txt") (pyStr "cherry") exMeta 5).removeFile
        (pyStr "/d/c.txt") = exAB :=
  ⟨⟨by decide, by decide, by decide⟩,
    addFile_removeFile_cancel exAB (pyStr "/d/c.txt") (pyStr "cherry")
      exMeta 5 (by decide) (by decide) (by decide)⟩

/-- C7: after any sequence of `add_file` / `remove_file` operations from a
fresh index, a path lies in the postings set of token `t` if and only if
`t` is among the tokens of the path's basename-plus-content as supplied at
its most recent live `add_file` (one not cancelled by a later
`remove_file`); and no token is mapped to an empty postings set. -/
theorem postings_invariant (ops : List IndexOp) (path t : Str) :
    (path ∈ (applyOps ops).postingsOf t ↔
      ∃ c, liveContent ops path = some c ∧ t ∈ fileTokens path c) ∧
    ∀ e ∈ (applyOps ops).index, e.2 ≠ [] :=
  ⟨postings_applyOps_char ops path t, (WF_applyOps ops).2⟩

/-- C8 (amended): the 2-character minimum is enforced by the index itself,
not only by the caller layer: `_tokenize` drops every word shorter than two
characters, so every 1-character query returns the empty list from every
index state. -/
theorem search_one_char_empty (st : SearchIndex) (q : Str)
    (maxResults : Nat) (h : q.length = 1) : st.search q maxResults = [] :=
  search_singleton_empty st q maxResults h

theorem search_one_char_empty_witness :
    (pyStr "a").length = 1 ∧ exDoc.search (pyStr "a") 10 = [] :=
  ⟨by decide, search_one_char_empty exDoc (pyStr "a") 10 (by decide)⟩

/-- C8 counterexample to the original existential: no index state answers
any 1-character query with a non-empty result list. -/
theorem no_nonempty_one_char_search :
    (∃ (st : SearchIndex) (q : Str) (maxResults : Nat),
      q.length = 1 ∧ st.search q maxResults ≠ []) = False :=
  eq_false (fun ⟨st, q, maxResults, h1, hne⟩ =>
    hne (search_singleton_empty st q maxResults h1))

/-- The operation sequence building `exDoc`. -/
def exOps : List IndexOp :=
  [.add (pyStr "/d/doc1.txt") (pyStr "apple banana") exMeta 0,
   .add (pyStr "/d/apple.txt") (pyStr "apple pie") exMeta 0]

/-- C9: every state reachable by `add_file` / `remove_file` keeps each
path occurring in any postings set covered by a `file_info` record
(`search` reads but never mutates the state in the model, every
`defaultdict` access being membership-guarded), so every result `search`
returns carries a path with recorded metadata. -/
theorem fileInfo_invariant (ops : List IndexOp) (q : Str) (maxResults : Nat)
    (r : Result) (hr : r ∈ (applyOps ops).search q maxResults) :
    InfoInv (applyOps ops) ∧
      (alLookup (applyOps ops).fileInfo r.filePath).isSome = true := by
  refine ⟨InfoInv_applyOps ops, ?_⟩
  obtain ⟨p, _, e, he, hrp, _⟩ := mem_search hr
  rw [hrp, he]
  rfl

theorem fileInfo_invariant_witness :
    resApple ∈ (applyOps exOps).search (pyStr "apple banana") 10 ∧
    (alLookup (applyOps exOps).fileInfo resApple.filePath).isSome = true :=
  ⟨by
    rw [show applyOps exOps = exDoc from by decide, search_exDoc_eval]
    exact List.mem_cons_self _ _,
   (fileInfo_invariant exOps (pyStr "apple banana") 10 resApple
      (by
        rw [show applyOps exOps = exDoc from by decide, search_exDoc_eval]
        exact List.mem_cons_self _ _)).2⟩

/-- C10: `search` returns the empty list for the empty query, for
whitespace-only queries, and for any query that tokenizes to no tokens
(every word shorter than two characters or a stop word); the state is left
unchanged — in the model `search` is a pure read, faithful to the source,
whose every `self.index` access is membership-guarded. -/
theorem search_trivial_query_empty (st : SearchIndex) (q : Str)
    (maxResults : Nat)
    (h : q = [] ∨ q.all isPySpace = true ∨ tokenize q = []) :
    st.search q maxResults = [] := by
  rcases h with rfl | h | h
  · unfold SearchIndex.search
    rw [if_pos (show ([] : Str).all isPySpace = true from rfl)]
  · unfold SearchIndex.search
    rw [if_pos h]
  · exact search_of_no_tokens h

theorem search_trivial_query_empty_witness :
    (pyStr "   " = [] ∨ (pyStr "   ").all isPySpace = true ∨
      tokenize (pyStr "   ") = []) ∧
    exDoc.search (pyStr "   ") 10 = [] :=
  ⟨Or.inr (Or.inl (by decide)),
    search_trivial_query_empty exDoc (pyStr "   ") 10
      (Or.inr (Or.inl (by decide)))⟩
